import Mathlib

/-!
Verification of the topic registry and webhook dispatch pipeline of
`telegram_notifier_bot.py`.

Strings of the Python program (which are sequences of Unicode code points,
possibly including lone surrogates) are modelled as `List Nat`; byte strings
are modelled as `List Nat` with entries below 256.  The SQLite table
`topics` (with `topic_name` as primary key) is modelled as a list of rows;
the `created_at` column is server-assigned and never consulted by the
operations verified here, so it is omitted from the row type.
-/

/-- Convert a Lean string literal to the code-point list representation used
throughout this development. -/
def s2 (s : String) : List Nat := s.toList.map Char.toNat

/-- A row of the `topics` table: `topic_name TEXT PRIMARY KEY`,
`user_id INTEGER NOT NULL`, `chat_id INTEGER NOT NULL`. -/
structure Row where
  topic_name : List Nat
  user_id : Int
  chat_id : Int
deriving DecidableEq, Repr

/-- The store invariant guaranteed by the `PRIMARY KEY` constraint on
`topic_name`: no two rows share a topic name. -/
def uniqNames (store : List Row) : Prop :=
  (store.map Row.topic_name).Nodup

/-- `TopicDatabase.add_topic`: `INSERT INTO topics (topic_name, user_id,
chat_id) VALUES (?, ?, ?)`; an `sqlite3.IntegrityError` (primary-key
conflict with an existing row of the same `topic_name`) makes it return
`False` without mutating the table, otherwise the row is appended and it
returns `True`. -/
def add_topic (store : List Row) (topic_name : List Nat) (user_id chat_id : Int) :
    Bool × List Row :=
  if store.any (fun r => r.topic_name == topic_name) then
    (false, store)
  else
    (true, store ++ [⟨topic_name, user_id, chat_id⟩])

/-- `TopicDatabase.get_topic`: `SELECT ... FROM topics WHERE topic_name = ?`
followed by `fetchone()`. -/
def get_topic (store : List Row) (topic_name : List Nat) : Option Row :=
  store.find? (fun r => r.topic_name == topic_name)

/-- `TopicDatabase.delete_topic`: `DELETE FROM topics WHERE user_id = ? AND
topic_name = ?`, returning `cursor.rowcount > 0`, i.e. whether the table
shrank. -/
def delete_topic (store : List Row) (user_id : Int) (topic_name : List Nat) :
    Bool × List Row :=
  let remaining := store.filter
    (fun r => !(r.user_id == user_id && r.topic_name == topic_name))
  (decide (remaining.length < store.length), remaining)

section StoreLemmas

theorem add_topic_exists (store : List Row) (name : List Nat) (uid cid : Int)
    (h : ∃ r ∈ store, r.topic_name = name) :
    add_topic store name uid cid = (false, store) := by
  obtain ⟨r, hr, hname⟩ := h
  have : store.any (fun r => r.topic_name == name) = true := by
    rw [List.any_eq_true]
    exact ⟨r, hr, by simp [hname]⟩
  simp [add_topic, this]

theorem add_topic_absent (store : List Row) (name : List Nat) (uid cid : Int)
    (h : ¬ ∃ r ∈ store, r.topic_name = name) :
    add_topic store name uid cid = (true, store ++ [⟨name, uid, cid⟩]) := by
  have : store.any (fun r => r.topic_name == name) = false := by
    rw [List.any_eq_false]
    intro r hr
    simp only [beq_iff_eq]
    exact fun hc => h ⟨r, hr, hc⟩
  simp [add_topic, this]

end StoreLemmas

/-- C1: `Add` is insert-if-absent: if any row (regardless of owner) already
has the requested name, `add_topic` returns `false` and leaves the store
unchanged; otherwise it returns `true` and the new store is exactly the old
rows plus the single new `(name, ownerId, destinationId)` row. -/
theorem add_topic_insert_if_absent (store : List Row) (name : List Nat)
    (uid cid : Int) :
    ((∃ r ∈ store, r.topic_name = name) →
        add_topic store name uid cid = (false, store)) ∧
    ((¬ ∃ r ∈ store, r.topic_name = name) →
        add_topic store name uid cid = (true, store ++ [⟨name, uid, cid⟩])) :=
  ⟨add_topic_exists store name uid cid, add_topic_absent store name uid cid⟩

/-- Witness for C1 at concrete inputs: a fresh insert succeeds and a
duplicate name (even from a different owner) is rejected without mutation. -/
theorem add_topic_insert_if_absent_witness :
    add_topic [] (s2 "alerts-1") 42 42 = (true, [⟨s2 "alerts-1", 42, 42⟩]) ∧
    add_topic [⟨s2 "alerts-1", 42, 42⟩] (s2 "alerts-1") 7 7 =
      (false, [⟨s2 "alerts-1", 42, 42⟩]) :=
  ⟨(add_topic_insert_if_absent [] (s2 "alerts-1") 42 42).2 (by simp),
   (add_topic_insert_if_absent [⟨s2 "alerts-1", 42, 42⟩] (s2 "alerts-1") 7 7).1
     ⟨⟨s2 "alerts-1", 42, 42⟩, by simp⟩⟩

/-!
### Python values

`json.loads` produces Python values: `None`, `bool`, `int`, `float`, `str`,
`list`, `dict`.  Python floats are idealised as exact decimal values
`m * 10 ^ e` (binary64 rounding and overflow to infinity are not modelled;
every claim verified here is insensitive to that idealisation), with the
special values `nan`, `inf` and `-inf` kept separate.  Strings are lists of
code points (Python strings may contain lone surrogates, which Lean `Char`
cannot, hence `List Nat`).  Lists and dicts are represented by the mutual
types `PyList` and `PyKVs` so that all functions below are structurally
recursive and kernel-reducible.
-/

mutual
inductive PyVal where
  | PNone
  | PBool (b : Bool)
  | PInt (n : Int)
  | PFloat (m : Int) (e : Int)
  | PNan
  | PInf
  | PNegInf
  | PStr (s : List Nat)
  | PList (xs : PyList)
  | PDict (kvs : PyKVs)
deriving DecidableEq
inductive PyList where
  | nil
  | cons (v : PyVal) (t : PyList)
deriving DecidableEq
inductive PyKVs where
  | nil
  | cons (k : List Nat) (v : PyVal) (t : PyKVs)
deriving DecidableEq
end

/-- JSON whitespace skipping: `json.decoder` skips space, tab, newline and
carriage return between tokens. -/
def skipWs (s : List Nat) : List Nat :=
  s.dropWhile (fun c => c == 32 || c == 9 || c == 10 || c == 13)

/-- Decimal digit character test. -/
def isDigit (c : Nat) : Bool := 48 ≤ c && c ≤ 57

/-- Value of a hexadecimal digit character, if it is one. -/
def hexVal (c : Nat) : Option Nat :=
  if 48 ≤ c && c ≤ 57 then some (c - 48)
  else if 97 ≤ c && c ≤ 102 then some (c - 87)
  else if 65 ≤ c && c ≤ 70 then some (c - 55)
  else none

/-- Single-character JSON string escapes (`json.decoder.BACKSLASH`). -/
def escChar (e : Nat) : Option Nat :=
  if e = 34 then some 34
  else if e = 92 then some 92
  else if e = 47 then some 47
  else if e = 98 then some 8
  else if e = 102 then some 12
  else if e = 110 then some 10
  else if e = 114 then some 13
  else if e = 116 then some 9
  else none

/-- Whether a list starts with the given character. -/
def headIs : List Nat → Nat → Bool
  | x :: _, c => x == c
  | [], _ => false

def parseHex4 : List Nat → Option (Nat × List Nat)
  | a :: b :: c :: d :: r =>
    (match hexVal a, hexVal b, hexVal c, hexVal d with
     | some ha, some hb, some hc, some hd =>
       some (ha * 4096 + hb * 256 + hc * 16 + hd, r)
     | _, _, _, _ => none)
  | _ => none

/-- JSON string-body scanner (after the opening quote), mirroring Python's
strict `py_scanstring`: raw characters below 32 are rejected, `\uXXXX`
escapes are decoded, and an escaped high surrogate directly followed by an
escaped low surrogate combines into one code point (as Python's scanner
does by peeking for `\u` after a high surrogate).  The fuel argument
(callers pass `length + 1`) only makes the recursion structural; it never
runs out. -/
def parseStrF : Nat → List Nat → Option (List Nat × List Nat)
  | 0, _ => none
  | _ + 1, [] => none
  | f + 1, c :: r =>
    if c = 34 then some ([], r)
    else if c = 92 then
      match r with
      | [] => none
      | e :: r2 =>
        if e = 117 then
          match parseHex4 r2 with
          | none => none
          | some (h, r3) =>
            if 55296 ≤ h ∧ h ≤ 56319 then
              if headIs r3 92 && headIs r3.tail 117 then
                match parseHex4 r3.tail.tail with
                | some (l, r4) =>
                  if 56320 ≤ l ∧ l ≤ 57343 then
                    (parseStrF f r4).map
                      (fun p => ((65536 + (h - 55296) * 1024 + (l - 56320)) :: p.1, p.2))
                  else (parseStrF f r3).map (fun p => (h :: p.1, p.2))
                | none => (parseStrF f r3).map (fun p => (h :: p.1, p.2))
              else (parseStrF f r3).map (fun p => (h :: p.1, p.2))
            else (parseStrF f r3).map (fun p => (h :: p.1, p.2))
        else
          match escChar e with
          | some x => (parseStrF f r2).map (fun p => (x :: p.1, p.2))
          | none => none
    else if c < 32 then none
    else (parseStrF f r).map (fun p => (c :: p.1, p.2))

/-- Numeric value of a list of decimal digit characters. -/
def natOfDigits (ds : List Nat) : Nat := ds.foldl (fun a c => a * 10 + (c - 48)) 0

/-- The integer part of Python's `NUMBER_RE` regex, `0|[1-9]\d*`: a leading
zero is a complete integer part. -/
def parseIntPart : List Nat → Option (List Nat × List Nat)
  | [] => none
  | c :: r =>
    if c = 48 then some ([48], r)
    else if isDigit c then some (c :: r.takeWhile isDigit, r.dropWhile isDigit)
    else none

/-- Strip trailing decimal zeros: `canonFloatAux m k` is the canonical form
of the exact decimal `m * 10 ^ (-k)` for `m ≠ 0`. -/
def canonFloatAux : Int → Nat → Int × Int
  | m, 0 => (m, 0)
  | m, k + 1 => if m % 10 == 0 then canonFloatAux (m / 10) k else (m, -(k + 1 : Int))

/-- Build the canonical `PFloat` for the exact decimal `m0 * 10 ^ e0`. -/
def mkFloat (m0 e0 : Int) : PyVal :=
  if m0 = 0 then .PFloat 0 0
  else if 0 ≤ e0 then .PFloat (m0 * 10 ^ e0.toNat) 0
  else .PFloat (canonFloatAux m0 (-e0).toNat).1 (canonFloatAux m0 (-e0).toNat).2

/-- Python's JSON number scanner (`NUMBER_RE` plus `parse_int`/`parse_float`):
`-? (0|[1-9]\d*) (\.\d+)? ([eE][-+]?\d+)?`; a lexeme without fraction and
exponent is an `int`, anything else a `float`.  A dot or exponent letter not
followed by digits is not consumed (the groups are optional in the regex). -/
def parseNumber (s : List Nat) : Option (PyVal × List Nat) :=
  let neg : Bool := headIs s 45
  let s1 := if headIs s 45 then s.tail else s
  match parseIntPart s1 with
  | none => none
  | some (ids, r1) =>
    let hasFrac : Bool := match r1 with
      | 46 :: rf => !(rf.takeWhile isDigit).isEmpty
      | _ => false
    let fds : List Nat := match r1 with
      | 46 :: rf => if (rf.takeWhile isDigit).isEmpty then [] else rf.takeWhile isDigit
      | _ => []
    let r2 : List Nat := match r1 with
      | 46 :: rf => if (rf.takeWhile isDigit).isEmpty then r1 else rf.dropWhile isDigit
      | _ => r1
    let expPart : Option (Bool × List Nat × List Nat) := match r2 with
      | e :: re =>
        if e == 101 || e == 69 then
          let eneg : Bool := match re with | 45 :: _ => true | _ => false
          let re2 : List Nat := match re with | 45 :: rr => rr | 43 :: rr => rr | _ => re
          let ed := re2.takeWhile isDigit
          if ed.isEmpty then none else some (eneg, ed, re2.dropWhile isDigit)
        else none
      | [] => none
    let sgn : Int := if neg then -1 else 1
    match expPart with
    | some (eneg, ed, r3) =>
      let m0 : Int := sgn * (natOfDigits (ids ++ fds) : Int)
      let ev : Int := if eneg then -(natOfDigits ed : Int) else (natOfDigits ed : Int)
      some (mkFloat m0 (ev - fds.length), r3)
    | none =>
      if hasFrac then
        some (mkFloat (sgn * (natOfDigits (ids ++ fds) : Int)) (-(fds.length : Int)), r2)
      else
        some (.PInt (sgn * (natOfDigits ids : Int)), r1)

/-- Membership of a key in a Python dict. -/
def keyMem (k : List Nat) : PyKVs → Bool
  | .nil => false
  | .cons k0 _ t => k == k0 || keyMem k t

/-- `d[k] = v` on a Python dict: an existing key keeps its position and gets
the new value, a new key is appended. -/
def pyDictSet : PyKVs → List Nat → PyVal → PyKVs
  | .nil, k, v => .cons k v .nil
  | .cons k0 v0 t, k, v =>
    if k0 = k then .cons k0 v t else .cons k0 v0 (pyDictSet t k v)

/-- Build a dict from the scanned key/value pairs in order (duplicate keys:
last value wins, first position kept), as Python's object scanner does. -/
def objBuild : PyKVs → PyKVs → PyKVs
  | acc, .nil => acc
  | acc, .cons k v t => objBuild (pyDictSet acc k v) t

def objFromPairs (pairs : PyKVs) : PyKVs := objBuild .nil pairs

/-- Array items loop (after the first non-`]` token inside `[`): parse a
value with `p`, then expect `,` (continue) or `]` (finish). -/
def itemsLoop (p : List Nat → Option (PyVal × List Nat)) :
    Nat → List Nat → Option (PyList × List Nat)
  | 0, _ => none
  | f + 1, s =>
    match p s with
    | none => none
    | some (v, r) =>
      match skipWs r with
      | 44 :: r2 => (itemsLoop p f (skipWs r2)).map (fun q => (.cons v q.1, q.2))
      | 93 :: r2 => some (.cons v .nil, r2)
      | _ => none

/-- Object members loop (after the first non-`}` token inside `{`): keys
must be double-quoted strings, followed by `:`, a value, then `,` or `}`. -/
def kvLoop (p : List Nat → Option (PyVal × List Nat)) :
    Nat → List Nat → Option (PyKVs × List Nat)
  | 0, _ => none
  | f + 1, s =>
    match s with
    | 34 :: r =>
      (match parseStrF (r.length + 1) r with
       | none => none
       | some (k, r1) =>
         match skipWs r1 with
         | 58 :: r2 =>
           (match p (skipWs r2) with
            | none => none
            | some (v, r3) =>
              match skipWs r3 with
              | 44 :: r4 => (kvLoop p f (skipWs r4)).map (fun q => (.cons k v q.1, q.2))
              | 125 :: r4 => some (.cons k v .nil, r4)
              | _ => none)
         | _ => none)
    | _ => none

/-- Python's JSON value scanner `scan_once`: strings, objects, arrays, the
literal names (`null`, `true`, `false`, and the non-standard `NaN`,
`Infinity`, `-Infinity` which Python accepts by default), then numbers.
The fuel argument (callers pass `length + 1`, which always suffices since
every level of nesting consumes input) makes the recursion structural. -/
def pv : Nat → List Nat → Option (PyVal × List Nat)
  | 0, _ => none
  | f + 1, s =>
    match s with
    | 34 :: r => (parseStrF (r.length + 1) r).map (fun p => (.PStr p.1, p.2))
    | 123 :: r =>
      let r1 := skipWs r
      if headIs r1 125 then some (.PDict .nil, r1.tail)
      else (kvLoop (pv f) f r1).map (fun p => (.PDict (objFromPairs p.1), p.2))
    | 91 :: r =>
      let r1 := skipWs r
      if headIs r1 93 then some (.PList .nil, r1.tail)
      else (itemsLoop (pv f) f r1).map (fun p => (.PList p.1, p.2))
    | 110 :: 117 :: 108 :: 108 :: r => some (.PNone, r)
    | 116 :: 114 :: 117 :: 101 :: r => some (.PBool true, r)
    | 102 :: 97 :: 108 :: 115 :: 101 :: r => some (.PBool false, r)
    | 78 :: 97 :: 78 :: r => some (.PNan, r)
    | 73 :: 110 :: 102 :: 105 :: 110 :: 105 :: 116 :: 121 :: r => some (.PInf, r)
    | 45 :: 73 :: 110 :: 102 :: 105 :: 110 :: 105 :: 116 :: 121 :: r => some (.PNegInf, r)
    | _ => parseNumber s

/-- `json.loads`: skip leading whitespace, scan one value, require that only
whitespace remains. -/
def json_loads (s : List Nat) : Option PyVal :=
  let t := skipWs s
  match pv (t.length + 1) t with
  | some (v, r) => if (skipWs r).isEmpty then some v else none
  | none => none

/-!
### Serialisation: `json.dumps(v, indent=2)` and Python `repr`/`str`
-/

/-- Indentation: `n` spaces. -/
def indSp (n : Nat) : List Nat := List.replicate n 32

/-- Character of a single decimal digit or (for `hex*`) hexadecimal digit;
Python emits lowercase hex. -/
def hexDigitCh (k : Nat) : Nat := if k < 10 then 48 + k else 87 + k

def hex2 (n : Nat) : List Nat := [hexDigitCh (n / 16 % 16), hexDigitCh (n % 16)]

def hex4 (n : Nat) : List Nat :=
  [hexDigitCh (n / 4096 % 16), hexDigitCh (n / 256 % 16),
   hexDigitCh (n / 16 % 16), hexDigitCh (n % 16)]

def hex8 (n : Nat) : List Nat := hex4 (n / 65536) ++ hex4 (n % 65536)

/-- Little-endian decimal digits of `n`, with fuel (`n + 1` always
suffices); structural so that it kernel-reduces. -/
def natDigitsAux : Nat → Nat → List Nat
  | 0, _ => []
  | _ + 1, 0 => []
  | f + 1, n + 1 => (48 + (n + 1) % 10) :: natDigitsAux f ((n + 1) / 10)

/-- Decimal digit characters of a natural number. -/
def natDigitChars (n : Nat) : List Nat :=
  if n = 0 then [48] else (natDigitsAux (n + 1) n).reverse

/-- Decimal representation of a Python `int`. -/
def intDigitChars (n : Int) : List Nat :=
  if n < 0 then 45 :: natDigitChars n.natAbs else natDigitChars n.natAbs

/-- Decimal representation of the exact-decimal float `m * 10 ^ e` in
canonical form (`e ≤ 0`, no trailing fractional zeros): digits with a
decimal point inserted, always keeping at least one digit on each side,
as `repr` of a float does for plain decimals. -/
def floatChars (m e : Int) : List Nat :=
  let k := (-e).toNat
  let ds := natDigitChars m.natAbs
  let ds' := List.replicate (k + 1 - ds.length) 48 ++ ds
  (if m < 0 then [45] else []) ++
    ds'.take (ds'.length - k) ++ [46] ++
    (if k = 0 then [48] else ds'.drop (ds'.length - k))

/-- `ensure_ascii` encoding of one string character in `json.dumps`:
`"`, `\` and the five named controls get short escapes, every other
character outside `0x20 ..= 0x7e` becomes `\uXXXX` (a surrogate pair for
code points above `0xFFFF`). -/
def encChar (c : Nat) : List Nat :=
  if c = 34 then [92, 34]
  else if c = 92 then [92, 92]
  else if c = 8 then [92, 98]
  else if c = 9 then [92, 116]
  else if c = 10 then [92, 110]
  else if c = 12 then [92, 102]
  else if c = 13 then [92, 114]
  else if c < 32 then [92, 117] ++ hex4 c
  else if c < 127 then [c]
  else if c < 65536 then [92, 117] ++ hex4 c
  else [92, 117] ++ hex4 (55296 + (c - 65536) / 1024) ++
       [92, 117] ++ hex4 (56320 + (c - 65536) % 1024)

def encStr : List Nat → List Nat
  | [] => []
  | c :: t => encChar c ++ encStr t

mutual

/-- `json.dumps(v, indent=2)` at indentation level `lvl` (Python's default
separators with indent are `','` and `': '`; empty containers print with no
inner newline). -/
def dumpVal : PyVal → Nat → List Nat
  | .PNone, _ => s2 "null"
  | .PBool true, _ => s2 "true"
  | .PBool false, _ => s2 "false"
  | .PInt n, _ => intDigitChars n
  | .PFloat m e, _ => floatChars m e
  | .PNan, _ => s2 "NaN"
  | .PInf, _ => s2 "Infinity"
  | .PNegInf, _ => s2 "-Infinity"
  | .PStr s, _ => [34] ++ encStr s ++ [34]
  | .PList .nil, _ => [91, 93]
  | .PList (.cons v t), lvl =>
    [91, 10] ++ dumpItems (PyList.cons v t) (lvl + 2) ++ [10] ++ indSp lvl ++ [93]
  | .PDict .nil, _ => [123, 125]
  | .PDict (.cons k v t), lvl =>
    [123, 10] ++ dumpEntries (PyKVs.cons k v t) (lvl + 2) ++ [10] ++ indSp lvl ++ [125]

def dumpItems : PyList → Nat → List Nat
  | .nil, _ => []
  | .cons v .nil, lvl => indSp lvl ++ dumpVal v lvl
  | .cons v (.cons w t), lvl =>
    indSp lvl ++ dumpVal v lvl ++ [44, 10] ++ dumpItems (PyList.cons w t) lvl

def dumpEntries : PyKVs → Nat → List Nat
  | .nil, _ => []
  | .cons k v .nil, lvl =>
    indSp lvl ++ [34] ++ encStr k ++ [34, 58, 32] ++ dumpVal v lvl
  | .cons k v (.cons k2 v2 t), lvl =>
    indSp lvl ++ [34] ++ encStr k ++ [34, 58, 32] ++ dumpVal v lvl ++ [44, 10] ++
      dumpEntries (PyKVs.cons k2 v2 t) lvl

end

/-- `json.dumps(v, indent=2)` as used in `webhook_handler`. -/
def json_dumps2 (v : PyVal) : List Nat := dumpVal v 0

/-- Quote character chosen by Python `repr` for a string: double quote
exactly when the string contains `'` but no `"`. -/
def reprQuote (s : List Nat) : Nat :=
  if s.contains 39 && !(s.contains 34) then 34 else 39

/-- Printability approximation used by `repr`: exact below `U+0080`
(printable iff `0x20 ..= 0x7e`); code points at and above `U+0080` are
treated as printable except the C1 controls `U+0080 ..= U+00A0`, the soft
hyphen `U+00AD` and surrogates.  (Python consults Unicode categories here;
the claims verified in this file depend only on code points below 32, where
this is exact.) -/
def reprPrintable (c : Nat) : Bool :=
  (32 ≤ c && c ≤ 126) || (161 ≤ c && c != 173 && !(55296 ≤ c && c ≤ 57343))

/-- `repr` of a single string character inside quote character `q`. -/
def reprChar (q c : Nat) : List Nat :=
  if c = 92 then [92, 92]
  else if c = q then [92, q]
  else if c = 10 then [92, 110]
  else if c = 13 then [92, 114]
  else if c = 9 then [92, 116]
  else if reprPrintable c then [c]
  else if c < 256 then [92, 120] ++ hex2 c
  else if c < 65536 then [92, 117] ++ hex4 c
  else [92, 85] ++ hex8 c

def reprStrBody (q : Nat) : List Nat → List Nat
  | [] => []
  | c :: t => reprChar q c ++ reprStrBody q t

/-- Python `repr` of a string. -/
def reprOfStr (s : List Nat) : List Nat :=
  let q := reprQuote s
  [q] ++ reprStrBody q s ++ [q]

mutual

/-- Python `str`/`repr` of a value, as produced by `str(data)` in
`webhook_handler` (only reached for dicts, but defined on all values). -/
def pyRepr : PyVal → List Nat
  | .PNone => s2 "None"
  | .PBool true => s2 "True"
  | .PBool false => s2 "False"
  | .PInt n => intDigitChars n
  | .PFloat m e => floatChars m e
  | .PNan => s2 "nan"
  | .PInf => s2 "inf"
  | .PNegInf => s2 "-inf"
  | .PStr s => reprOfStr s
  | .PList .nil => [91, 93]
  | .PList (.cons v t) => [91] ++ reprItems (PyList.cons v t) ++ [93]
  | .PDict .nil => [123, 125]
  | .PDict (.cons k v t) => [123] ++ reprEntries (PyKVs.cons k v t) ++ [125]

def reprItems : PyList → List Nat
  | .nil => []
  | .cons v .nil => pyRepr v
  | .cons v (.cons w t) => pyRepr v ++ [44, 32] ++ reprItems (PyList.cons w t)

def reprEntries : PyKVs → List Nat
  | .nil => []
  | .cons k v .nil => reprOfStr k ++ [58, 32] ++ pyRepr v
  | .cons k v (.cons k2 v2 t) =>
    reprOfStr k ++ [58, 32] ++ pyRepr v ++ [44, 32] ++ reprEntries (PyKVs.cons k2 v2 t)

end

/-!
### The webhook pipeline
-/

/-- `raw_body.decode('utf-8', errors='replace')`: UTF-8 decoding where each
maximal subpart of an invalid sequence is replaced by one `U+FFFD`
replacement character, as CPython's codec does. -/
def u8d : List Nat → List Nat
  | [] => []
  | b :: r =>
    if b < 128 then b :: u8d r
    else if b < 194 then 65533 :: u8d r
    else if b ≤ 223 then
      match r with
      | [] => [65533]
      | c1 :: r2 =>
        if 128 ≤ c1 && c1 ≤ 191 then ((b - 192) * 64 + (c1 - 128)) :: u8d r2
        else 65533 :: u8d (c1 :: r2)
    else if b ≤ 239 then
      match r with
      | [] => [65533]
      | c1 :: r2 =>
        if (if b = 224 then 160 ≤ c1 && c1 ≤ 191
            else if b = 237 then 128 ≤ c1 && c1 ≤ 159
            else 128 ≤ c1 && c1 ≤ 191) then
          match r2 with
          | [] => [65533]
          | c2 :: r3 =>
            if 128 ≤ c2 && c2 ≤ 191 then
              ((b - 224) * 4096 + (c1 - 128) * 64 + (c2 - 128)) :: u8d r3
            else 65533 :: u8d (c2 :: r3)
        else 65533 :: u8d (c1 :: r2)
    else if b ≤ 244 then
      match r with
      | [] => [65533]
      | c1 :: r2 =>
        if (if b = 240 then 144 ≤ c1 && c1 ≤ 191
            else if b = 244 then 128 ≤ c1 && c1 ≤ 143
            else 128 ≤ c1 && c1 ≤ 191) then
          match r2 with
          | [] => [65533]
          | c2 :: r3 =>
            if 128 ≤ c2 && c2 ≤ 191 then
              match r3 with
              | [] => [65533]
              | c3 :: r4 =>
                if 128 ≤ c3 && c3 ≤ 191 then
                  ((b - 240) * 262144 + (c1 - 128) * 4096 + (c2 - 128) * 64 + (c3 - 128)) :: u8d r4
                else 65533 :: u8d (c3 :: r4)
            else 65533 :: u8d (c2 :: r3)
        else 65533 :: u8d (c1 :: r2)
    else 65533 :: u8d r

/-- The inline cleaning in `webhook_handler` before the first JSON decode:
`''.join(chr(b) if 32 <= b <= 126 or b in [9, 10, 13] else ' ' for b in
raw_body)`. -/
def clean_raw_body (body : List Nat) : List Nat :=
  body.map (fun b => if (32 ≤ b && b ≤ 126) || b == 9 || b == 10 || b == 13 then b else 32)

/-- `data.get('message', str(data))` for a dict `data`. -/
def dictGet (kvs : PyKVs) (k : List Nat) (dflt : PyVal) : PyVal :=
  match kvs with
  | .nil => dflt
  | .cons k0 v t => if k0 = k then v else dictGet t k dflt

/-- Message extraction (`webhook_handler` lines after reading the body):
for content-type `application/json`, clean the raw bytes, try `json.loads`,
and on success take `data.get('message', str(data))` — which raises
`AttributeError` (modelled as `none`) when the decoded value is not a dict;
on decode failure, or for any other content type, the message is the
raw body decoded as UTF-8 with replacement. -/
def extract_message (isJsonCT : Bool) (body : List Nat) : Option PyVal :=
  if isJsonCT then
    match json_loads (clean_raw_body body) with
    | some (.PDict kvs) =>
      some (dictGet kvs (s2 "message") (.PStr (pyRepr (.PDict kvs))))
    | some _ => none
    | none => some (.PStr (u8d body))
  else some (.PStr (u8d body))

/-- Python truthiness (`not message`): `None`, `False`, numeric zero and
empty containers are falsy. -/
def pyFalsy : PyVal → Bool
  | .PNone => true
  | .PBool b => !b
  | .PInt n => n == 0
  | .PFloat m _ => m == 0
  | .PNan => false
  | .PInf => false
  | .PNegInf => false
  | .PStr s => s.isEmpty
  | .PList xs => match xs with | .nil => true | _ => false
  | .PDict kvs => match kvs with | .nil => true | _ => false

/-- The control-character strip of the free-text path:
`''.join(char for char in message if ord(char) >= 32 or char in '\n\r\t')`. -/
def stripCtl (s : List Nat) : List Nat :=
  s.filter (fun c => 32 ≤ c || c == 10 || c == 13 || c == 9)

/-- `str.replace` for a single-character pattern. -/
def pyReplace (pat : Nat) (rep : List Nat) : List Nat → List Nat
  | [] => []
  | c :: t => (if c = pat then rep else [c]) ++ pyReplace pat rep t

/-- The Markdown escape chain of the free-text path: `_`, `*`, `[`, `]`,
`` ` ``, each prefixed with a backslash, applied in the source's order. -/
def mdEscape (s : List Nat) : List Nat :=
  pyReplace 96 [92, 96]
    (pyReplace 93 [92, 93]
      (pyReplace 91 [92, 91]
        (pyReplace 42 [92, 42]
          (pyReplace 95 [92, 95] s))))

/-- Contribution of one iterated element to
`''.join(char for char in message if ord(char) >= 32 or char in '\n\r\t')`
when the element is a one-character string (anything else raises
`TypeError` in `ord`). -/
def joinChars1 (c : Nat) : List Nat :=
  if 32 ≤ c then [c] else if c == 10 || c == 13 || c == 9 then [c] else []

/-- The free-text strip applied to a Python list: every element must be a
one-character string, otherwise `ord` raises (modelled as `none`). -/
def joinElems : PyList → Option (List Nat)
  | .nil => some []
  | .cons (.PStr [c]) t => (joinElems t).map (fun r => joinChars1 c ++ r)
  | .cons _ _ => none

/-- The free-text strip applied to a Python dict (iteration yields keys):
every key must be a one-character string. -/
def joinKeys : PyKVs → Option (List Nat)
  | .nil => some []
  | .cons [c] _ t => (joinKeys t).map (fun r => joinChars1 c ++ r)
  | .cons _ _ _ => none

/-- The literal code block `f"```json\n{json.dumps(parsed_json, indent=2)}\n```"`. -/
def codeblock (p : List Nat) : List Nat := s2 "```json\n" ++ p ++ s2 "\n```"

/-- The formatting step of `webhook_handler`: try `json.loads(message)`;
on success wrap the pretty-printed value in a code block; on
`JSONDecodeError`/`TypeError` fall back to stripping control characters and
escaping Markdown.  For a non-string message the strip raises `TypeError`
(modelled as `none`) unless the message is a list of one-character strings
or a dict with one-character keys, mirroring `ord` inside the
comprehension. -/
def formatMessage : PyVal → Option (List Nat)
  | .PStr s =>
    match json_loads s with
    | some v => some (codeblock (json_dumps2 v))
    | none => some (mdEscape (stripCtl s))
  | .PList xs => (joinElems xs).map mdEscape
  | .PDict kvs => (joinKeys kvs).map mdEscape
  | _ => none

/-- Observable outcome of one `webhook_handler` request: HTTP status,
response text, and the payloads (destination chat and text) of the backend
calls made.  `backendResp` abstracts the Telegram sendMessage response:
`some s` is an HTTP response with status `s`, `none` a transport failure
(an exception from the POST, caught by the outer `except`). -/
structure HandlerOutcome where
  status : Nat
  text : String
  backendCalls : List (Int × List Nat)
deriving DecidableEq

/-- `webhook_handler`: look the topic up (404 when absent), extract the
message from the body (uncaught exceptions become 500 "Internal server
error"), reject falsy messages with 400, format, send to the backend once,
and map the backend response: status 200 → 200 "Notification sent",
anything else → 500 "Failed to send notification", transport failure →
500 "Internal server error" via the outer `except`. -/
def webhook_handler (store : List Row) (topic_name : List Nat)
    (isJsonCT : Bool) (raw_body : List Nat) (backendResp : Option Nat) :
    HandlerOutcome :=
  match get_topic store topic_name with
  | none => ⟨404, "Topic not found", []⟩
  | some topic =>
    match extract_message isJsonCT raw_body with
    | none => ⟨500, "Internal server error", []⟩
    | some message =>
      if pyFalsy message then ⟨400, "No message provided", []⟩
      else
        match formatMessage message with
        | none => ⟨500, "Internal server error", []⟩
        | some formatted =>
          let notification := s2 "🔔 **" ++ topic_name ++ s2 "**\n\n" ++ formatted
          match backendResp with
          | none => ⟨500, "Internal server error", [(topic.chat_id, notification)]⟩
          | some st =>
            if st = 200 then ⟨200, "Notification sent", [(topic.chat_id, notification)]⟩
            else ⟨500, "Failed to send notification", [(topic.chat_id, notification)]⟩

section DeleteLemmas

/-- The row-matching predicate of `delete_topic`'s `WHERE` clause, kept form. -/
def keepRow (uid : Int) (name : List Nat) (r : Row) : Bool :=
  !(r.user_id == uid && r.topic_name == name)

theorem keepRow_eq_false_iff (uid : Int) (name : List Nat) (r : Row) :
    keepRow uid name r = false ↔ r.user_id = uid ∧ r.topic_name = name := by
  simp [keepRow]

theorem delete_topic_eq (store : List Row) (uid : Int) (name : List Nat) :
    delete_topic store uid name =
      (decide ((store.filter (keepRow uid name)).length < store.length),
        store.filter (keepRow uid name)) := rfl

theorem delete_topic_no_match (store : List Row) (uid : Int) (name : List Nat)
    (h : ∀ r ∈ store, ¬(r.user_id = uid ∧ r.topic_name = name)) :
    delete_topic store uid name = (false, store) := by
  have hkeep : ∀ r ∈ store, keepRow uid name r = true := by
    intro r hr
    cases hkr : keepRow uid name r with
    | true => rfl
    | false => exact absurd ((keepRow_eq_false_iff uid name r).mp hkr) (h r hr)
  have hfilter : store.filter (keepRow uid name) = store := List.filter_eq_self.mpr hkeep
  rw [delete_topic_eq, hfilter]
  simp

end DeleteLemmas

/-- C2: `Delete` is ownership-scoped.  On a store satisfying the primary-key
invariant: the returned flag is true iff a row with exactly the requested
(owner, name) pair exists; when no such row exists (in particular when the
name exists under a different owner) the store is unchanged; and when the
row exists, exactly that row is removed. -/
theorem delete_topic_ownership_scoped (store : List Row) (uid : Int)
    (name : List Nat) (huniq : uniqNames store) :
    ((delete_topic store uid name).1 = true ↔
        ∃ r ∈ store, r.user_id = uid ∧ r.topic_name = name) ∧
    ((¬ ∃ r ∈ store, r.user_id = uid ∧ r.topic_name = name) →
        delete_topic store uid name = (false, store)) ∧
    (∀ r ∈ store, r.user_id = uid → r.topic_name = name →
        ∃ pre post, store = pre ++ r :: post ∧
          delete_topic store uid name = (true, pre ++ post)) := by
  have hremove : ∀ r ∈ store, r.user_id = uid → r.topic_name = name →
      ∃ pre post, store = pre ++ r :: post ∧
        delete_topic store uid name = (true, pre ++ post) := by
    intro r hr huid hname
    obtain ⟨pre, post, hsplit⟩ := List.append_of_mem hr
    refine ⟨pre, post, hsplit, ?_⟩
    subst hsplit
    have hnodup := huniq
    unfold uniqNames at hnodup
    rw [List.map_append, List.map_cons] at hnodup
    have hpre : ∀ x ∈ pre, keepRow uid name x = true := by
      intro x hx
      have hxname : x.topic_name ≠ name := by
        intro hcontra
        have h1 : r.topic_name ∈ pre.map Row.topic_name := by
          rw [hname, ← hcontra]
          exact List.mem_map_of_mem Row.topic_name hx
        have h2 := (List.nodup_append.mp hnodup).2.2
        exact h2 h1 (List.mem_cons_self _ _)
      simp [keepRow, hxname]
    have hpost : ∀ x ∈ post, keepRow uid name x = true := by
      intro x hx
      have hxname : x.topic_name ≠ name := by
        intro hcontra
        have h2 := (List.nodup_append.mp hnodup).2.1
        rw [List.nodup_cons] at h2
        apply h2.1
        rw [hname, ← hcontra]
        exact List.mem_map_of_mem Row.topic_name hx
      simp [keepRow, hxname]
    have hrdrop : keepRow uid name r = false :=
      (keepRow_eq_false_iff uid name r).mpr ⟨huid, hname⟩
    have hc : List.filter (keepRow uid name) (r :: post) =
        List.filter (keepRow uid name) post := by
      simp [List.filter_cons, hrdrop]
    rw [delete_topic_eq, List.filter_append, hc,
      List.filter_eq_self.mpr hpre, List.filter_eq_self.mpr hpost]
    simp [List.length_append]
  refine ⟨?_, fun h => delete_topic_no_match store uid name
    (by push_neg at h; exact fun r hr hc => h r hr hc.1 hc.2), hremove⟩
  constructor
  · intro htrue
    by_contra hno
    rw [delete_topic_no_match store uid name
      (by push_neg at hno; exact fun r hr hc => hno r hr hc.1 hc.2)] at htrue
    simp at htrue
  · rintro ⟨r, hr, huid, hname⟩
    obtain ⟨pre, post, _, heq⟩ := hremove r hr huid hname
    rw [heq]

/-- Witness for C2: deleting with the wrong owner fails and leaves the row,
deleting with the right owner removes exactly that row. -/
theorem delete_topic_ownership_scoped_witness :
    delete_topic [⟨s2 "alerts-1", 42, 42⟩] 7 (s2 "alerts-1") =
      (false, [⟨s2 "alerts-1", 42, 42⟩]) ∧
    delete_topic [⟨s2 "alerts-1", 42, 42⟩] 42 (s2 "alerts-1") = (true, []) := by
  have huniq : uniqNames [⟨s2 "alerts-1", 42, 42⟩] := by
    unfold uniqNames; simp
  constructor
  · exact (delete_topic_ownership_scoped [⟨s2 "alerts-1", 42, 42⟩] 7 (s2 "alerts-1") huniq).2.1
      (by rintro ⟨r, hr, huid, _⟩; simp at hr; rw [hr] at huid; simp at huid)
  · obtain ⟨pre, post, hsplit, heq⟩ :=
      (delete_topic_ownership_scoped [⟨s2 "alerts-1", 42, 42⟩] 42 (s2 "alerts-1") huniq).2.2
        ⟨s2 "alerts-1", 42, 42⟩ (by simp) rfl rfl
    cases pre with
    | cons a t =>
      have hlen := congrArg List.length hsplit
      simp only [List.length_cons, List.length_append, List.length_nil] at hlen
      omega
    | nil =>
      simp only [List.nil_append, List.cons.injEq] at hsplit
      rw [heq, ← hsplit.2]
      simp

/-- C4: a POST for a topic name not in the store returns 404 "Topic not
found" with no backend call, and the outcome is one constant independent of
content type, body and backend — the lookup decides before the body
matters. -/
theorem webhook_404_when_absent (store : List Row) (topic_name : List Nat)
    (h : get_topic store topic_name = none) :
    ∀ (isJsonCT : Bool) (raw_body : List Nat) (backendResp : Option Nat),
      webhook_handler store topic_name isJsonCT raw_body backendResp =
        ⟨404, "Topic not found", []⟩ := by
  intro isJsonCT raw_body backendResp
  unfold webhook_handler
  rw [h]

/-- Witness for C4: unknown topic, two different bodies, same 404. -/
theorem webhook_404_when_absent_witness :
    webhook_handler [⟨s2 "alerts-1", 42, 42⟩] (s2 "unknown") false (s2 "x") (some 200) =
      ⟨404, "Topic not found", []⟩ ∧
    webhook_handler [⟨s2 "alerts-1", 42, 42⟩] (s2 "unknown") true (s2 "\"y\"") none =
      ⟨404, "Topic not found", []⟩ :=
  ⟨webhook_404_when_absent [⟨s2 "alerts-1", 42, 42⟩] (s2 "unknown") rfl false (s2 "x") (some 200),
   webhook_404_when_absent [⟨s2 "alerts-1", 42, 42⟩] (s2 "unknown") rfl true (s2 "\"y\"") none⟩

/-- C5: whenever the extracted message is reported empty (Python-falsy, in
particular the empty string), the gateway answers 400 "No message provided"
and no backend call is made. -/
theorem webhook_empty_payload_400 (store : List Row) (topic_name : List Nat)
    (isJsonCT : Bool) (raw_body : List Nat) (backendResp : Option Nat)
    (topic : Row) (m : PyVal)
    (htopic : get_topic store topic_name = some topic)
    (hext : extract_message isJsonCT raw_body = some m)
    (hempty : pyFalsy m = true) :
    webhook_handler store topic_name isJsonCT raw_body backendResp =
      ⟨400, "No message provided", []⟩ := by
  unfold webhook_handler
  rw [htopic, hext]
  simp [hempty]

/-- Witness for C5: empty body on the text path gives the empty message and
a 400 with no backend call. -/
theorem webhook_empty_payload_400_witness :
    webhook_handler [⟨s2 "alerts-1", 42, 42⟩] (s2 "alerts-1") false [] (some 200) =
      ⟨400, "No message provided", []⟩ :=
  webhook_empty_payload_400 [⟨s2 "alerts-1", 42, 42⟩] (s2 "alerts-1") false [] (some 200)
    ⟨s2 "alerts-1", 42, 42⟩ (.PStr []) rfl rfl rfl

/-- Counterexample to C6 as stated: the backend reply 201 is an HTTP 2xx
success, yet the gateway maps it to 500 "Failed to send notification" — the
code tests `resp.status == 200`, not 2xx. -/
theorem webhook_2xx_counterexample :
    (200 ≤ 201 ∧ 201 ≤ 299) ∧
    webhook_handler [⟨s2 "alerts-1", 42, 42⟩] (s2 "alerts-1") false (s2 "hi") (some 201) =
      ⟨500, "Failed to send notification",
        [(42, s2 "🔔 **alerts-1**\n\nhi")]⟩ :=
  ⟨⟨by norm_num, by norm_num⟩, rfl⟩

/-- C6 (amended): once a request reaches the send step, exactly one backend
call is made (no retry), backend status exactly 200 maps to 200
"Notification sent", any other status to 500 "Failed to send notification",
and a transport failure to 500 via the outer handler. -/
theorem webhook_backend_mapping (store : List Row) (topic_name : List Nat)
    (isJsonCT : Bool) (raw_body : List Nat) (backendResp : Option Nat)
    (topic : Row) (m : PyVal) (formatted : List Nat)
    (htopic : get_topic store topic_name = some topic)
    (hext : extract_message isJsonCT raw_body = some m)
    (hnem : pyFalsy m = false)
    (hfmt : formatMessage m = some formatted) :
    (webhook_handler store topic_name isJsonCT raw_body backendResp).backendCalls =
      [(topic.chat_id, s2 "🔔 **" ++ topic_name ++ s2 "**\n\n" ++ formatted)] ∧
    (backendResp = some 200 →
      webhook_handler store topic_name isJsonCT raw_body backendResp =
        ⟨200, "Notification sent",
          [(topic.chat_id, s2 "🔔 **" ++ topic_name ++ s2 "**\n\n" ++ formatted)]⟩) ∧
    (∀ st, backendResp = some st → st ≠ 200 →
      webhook_handler store topic_name isJsonCT raw_body backendResp =
        ⟨500, "Failed to send notification",
          [(topic.chat_id, s2 "🔔 **" ++ topic_name ++ s2 "**\n\n" ++ formatted)]⟩) ∧
    (backendResp = none →
      webhook_handler store topic_name isJsonCT raw_body backendResp =
        ⟨500, "Internal server error",
          [(topic.chat_id, s2 "🔔 **" ++ topic_name ++ s2 "**\n\n" ++ formatted)]⟩) := by
  unfold webhook_handler
  rw [htopic, hext]
  simp only [hnem, hfmt, Bool.false_eq_true, if_false]
  refine ⟨?_, ?_, ?_, ?_⟩
  · cases backendResp with
    | none => simp
    | some st =>
      by_cases hst : st = 200
      · subst hst; simp
      · simp [hst]
  · rintro rfl; simp
  · rintro st rfl hne; simp [hne]
  · rintro rfl; simp

/-- Witness for C6 (amended): concrete delivery, concrete non-200 status
and concrete transport failure. -/
theorem webhook_backend_mapping_witness :
    webhook_handler [⟨s2 "alerts-1", 42, 42⟩] (s2 "alerts-1") false (s2 "hi") (some 200) =
      ⟨200, "Notification sent", [(42, s2 "🔔 **alerts-1**\n\nhi")]⟩ ∧
    webhook_handler [⟨s2 "alerts-1", 42, 42⟩] (s2 "alerts-1") false (s2 "hi") (some 403) =
      ⟨500, "Failed to send notification", [(42, s2 "🔔 **alerts-1**\n\nhi")]⟩ ∧
    webhook_handler [⟨s2 "alerts-1", 42, 42⟩] (s2 "alerts-1") false (s2 "hi") none =
      ⟨500, "Internal server error", [(42, s2 "🔔 **alerts-1**\n\nhi")]⟩ :=
  ⟨(webhook_backend_mapping [⟨s2 "alerts-1", 42, 42⟩] (s2 "alerts-1") false (s2 "hi")
      (some 200) ⟨s2 "alerts-1", 42, 42⟩ (.PStr (s2 "hi")) (s2 "hi") rfl rfl rfl rfl).2.1 rfl,
   (webhook_backend_mapping [⟨s2 "alerts-1", 42, 42⟩] (s2 "alerts-1") false (s2 "hi")
      (some 403) ⟨s2 "alerts-1", 42, 42⟩ (.PStr (s2 "hi")) (s2 "hi") rfl rfl rfl rfl).2.2.1
        403 rfl (by norm_num),
   (webhook_backend_mapping [⟨s2 "alerts-1", 42, 42⟩] (s2 "alerts-1") false (s2 "hi")
      none ⟨s2 "alerts-1", 42, 42⟩ (.PStr (s2 "hi")) (s2 "hi") rfl rfl rfl rfl).2.2.2 rfl⟩

/-- Counterexample to C3 as stated: for content type `application/json` and
body `42` (a byte sequence), the decoded JSON value is not a dict, so
`data.get` raises `AttributeError` inside normalization (modelled as
`none`), and the gateway answers 500 "Internal server error" — so
normalization is not exception-free on every byte sequence. -/
theorem normalization_raises_counterexample :
    extract_message true (s2 "42") = none ∧
    webhook_handler [⟨s2 "alerts-1", 42, 42⟩] (s2 "alerts-1") true (s2 "42") (some 200) =
      ⟨500, "Internal server error", []⟩ :=
  ⟨rfl, rfl⟩

/-- Counterexample to C9 as stated: the non-empty JSON body
`{"message":""}` extracts an empty message, so the gateway returns 400
even though the input body was not empty. -/
theorem nonempty_body_empty_message_counterexample :
    s2 "\x7b\"message\":\"\"\x7d" ≠ [] ∧
    webhook_handler [⟨s2 "alerts-1", 42, 42⟩] (s2 "alerts-1") true
        (s2 "\x7b\"message\":\"\"\x7d") (some 200) =
      ⟨400, "No message provided", []⟩ :=
  ⟨by decide, rfl⟩

/-- Counterexample to C10 as stated: under content type `application/json`,
the body `0xC3 0xA9` (UTF-8 for `é`) fails JSON decoding after cleaning, so
the fallback decodes the raw bytes and the non-ASCII character `é`
(code point 233) does reach the extracted message. -/
theorem json_path_nonascii_counterexample :
    extract_message true [195, 169] = some (.PStr [233]) ∧ 126 < 233 :=
  ⟨rfl, by norm_num⟩

/-- C10 (amended): in the `application/json` path every byte of the raw
body outside printable ASCII that is not tab, newline or carriage return is
replaced by a space before `json.loads` is attempted, so every character of
the string handed to the JSON decoder is in that safe ASCII set.  (When that
decode fails, the fallback decodes the raw body instead, so non-ASCII can
still reach the message — see the counterexample.) -/
theorem clean_raw_body_printable_ascii (body : List Nat) :
    ∀ c ∈ clean_raw_body body, (32 ≤ c ∧ c ≤ 126) ∨ c = 9 ∨ c = 10 ∨ c = 13 := by
  intro c hc
  unfold clean_raw_body at hc
  rw [List.mem_map] at hc
  obtain ⟨b, _, hb⟩ := hc
  by_cases h : ((32 ≤ b && b ≤ 126) || b == 9 || b == 10 || b == 13) = true
  · rw [if_pos h] at hb
    subst hb
    simp only [Bool.or_eq_true, Bool.and_eq_true, decide_eq_true_eq, beq_iff_eq] at h
    tauto
  · rw [if_neg h] at hb
    subst hb
    left
    exact ⟨le_refl 32, by norm_num⟩

/-- Witness for C10 (amended): the out-of-range byte 200 has become a space
in the cleaned body. -/
theorem clean_raw_body_printable_ascii_witness :
    clean_raw_body [200, 65] = [32, 65] ∧
    ((32 ≤ 32 ∧ 32 ≤ 126) ∨ 32 = 9 ∨ 32 = 10 ∨ 32 = 13) :=
  ⟨rfl, clean_raw_body_printable_ascii [200, 65] 32 (by decide)⟩

/-!
### Control-character safety of normalization
-/

/-- Characters acceptable in `json.dumps` output: printable or the newline
introduced by `indent=2`. -/
abbrev OkL (s : List Nat) : Prop := ∀ c ∈ s, 32 ≤ c ∨ c = 10

theorem OkL_append {a b : List Nat} (ha : OkL a) (hb : OkL b) : OkL (a ++ b) := by
  intro c hc
  rcases List.mem_append.mp hc with h | h
  · exact ha c h
  · exact hb c h

theorem OkL_of_ge {s : List Nat} (h : ∀ c ∈ s, 32 ≤ c) : OkL s :=
  fun c hc => Or.inl (h c hc)

theorem hexDigitCh_ge (k : Nat) : 32 ≤ hexDigitCh k := by
  unfold hexDigitCh
  split <;> omega

theorem hex2_ge (n : Nat) : ∀ c ∈ hex2 n, 32 ≤ c := by
  intro c hc
  simp only [hex2, List.mem_cons, List.not_mem_nil, or_false] at hc
  rcases hc with rfl | rfl <;> exact hexDigitCh_ge _

theorem hex4_ge (n : Nat) : ∀ c ∈ hex4 n, 32 ≤ c := by
  intro c hc
  simp only [hex4, List.mem_cons, List.not_mem_nil, or_false] at hc
  rcases hc with rfl | rfl | rfl | rfl <;> exact hexDigitCh_ge _

theorem hex8_ge (n : Nat) : ∀ c ∈ hex8 n, 32 ≤ c := by
  intro c hc
  rcases List.mem_append.mp hc with h | h
  · exact hex4_ge _ c h
  · exact hex4_ge _ c h

theorem natDigitsAux_ge : ∀ (f n : Nat), ∀ c ∈ natDigitsAux f n, 32 ≤ c
  | 0, _ => by simp [natDigitsAux]
  | _ + 1, 0 => by simp [natDigitsAux]
  | f + 1, n + 1 => by
    intro c hc
    simp only [natDigitsAux, List.mem_cons] at hc
    rcases hc with rfl | hc
    · omega
    · exact natDigitsAux_ge f ((n + 1) / 10) c hc

theorem natDigitChars_ge (n : Nat) : ∀ c ∈ natDigitChars n, 32 ≤ c := by
  intro c hc
  unfold natDigitChars at hc
  split at hc
  · simp at hc; omega
  · rw [List.mem_reverse] at hc
    exact natDigitsAux_ge _ _ c hc

theorem intDigitChars_ge (n : Int) : ∀ c ∈ intDigitChars n, 32 ≤ c := by
  intro c hc
  unfold intDigitChars at hc
  split at hc
  · rcases List.mem_cons.mp hc with rfl | hc
    · omega
    · exact natDigitChars_ge _ c hc
  · exact natDigitChars_ge _ c hc

theorem floatChars_ge (m e : Int) : ∀ c ∈ floatChars m e, 32 ≤ c := by
  have hds : ∀ x ∈ List.replicate ((-e).toNat + 1 - (natDigitChars m.natAbs).length) 48 ++
      natDigitChars m.natAbs, 32 ≤ x := by
    intro x hx
    rcases List.mem_append.mp hx with h | h
    · rw [List.eq_of_mem_replicate h]; omega
    · exact natDigitChars_ge _ x h
  intro c hc
  simp only [floatChars, List.mem_append] at hc
  rcases hc with ((h | h) | h) | h
  · split at h
    · simp only [List.mem_cons, List.not_mem_nil, or_false] at h; omega
    · simp at h
  · exact hds c (List.take_subset _ _ h)
  · simp only [List.mem_cons, List.not_mem_nil, or_false] at h; omega
  · split at h
    · simp only [List.mem_cons, List.not_mem_nil, or_false] at h; omega
    · exact hds c (List.drop_subset _ _ h)

set_option maxHeartbeats 1000000 in
theorem encChar_ge (c : Nat) : ∀ x ∈ encChar c, 32 ≤ x := by
  intro x hx
  unfold encChar at hx
  split_ifs at hx with h1 h2 h3 h4 h5 h6 h7 h8 h9 h10
  · simp only [List.mem_cons, List.not_mem_nil, or_false] at hx; omega
  · simp only [List.mem_cons, List.not_mem_nil, or_false] at hx; omega
  · simp only [List.mem_cons, List.not_mem_nil, or_false] at hx; omega
  · simp only [List.mem_cons, List.not_mem_nil, or_false] at hx; omega
  · simp only [List.mem_cons, List.not_mem_nil, or_false] at hx; omega
  · simp only [List.mem_cons, List.not_mem_nil, or_false] at hx; omega
  · simp only [List.mem_cons, List.not_mem_nil, or_false] at hx; omega
  · rcases List.mem_append.mp hx with h | h
    · simp only [List.mem_cons, List.not_mem_nil, or_false] at h; omega
    · exact hex4_ge _ x h
  · simp only [List.mem_cons, List.not_mem_nil, or_false] at hx; omega
  · rcases List.mem_append.mp hx with h | h
    · simp only [List.mem_cons, List.not_mem_nil, or_false] at h; omega
    · exact hex4_ge _ x h
  · rcases List.mem_append.mp hx with h | h
    · rcases List.mem_append.mp h with h' | h'
      · rcases List.mem_append.mp h' with h'' | h''
        · simp only [List.mem_cons, List.not_mem_nil, or_false] at h''; omega
        · exact hex4_ge _ x h''
      · simp only [List.mem_cons, List.not_mem_nil, or_false] at h'; omega
    · exact hex4_ge _ x h

theorem encStr_ge : ∀ (s : List Nat), ∀ x ∈ encStr s, 32 ≤ x
  | [] => by simp [encStr]
  | c :: t => by
    intro x hx
    rcases List.mem_append.mp hx with h | h
    · exact encChar_ge c x h
    · exact encStr_ge t x h

theorem indSp_ok (n : Nat) : OkL (indSp n) := by
  intro c hc
  rw [List.eq_of_mem_replicate hc]
  omega

theorem okQuote : OkL [34] := by decide
theorem okNlBr : OkL [10] := by decide
theorem okOpenList : OkL [91, 10] := by decide
theorem okCloseList : OkL [93] := by decide
theorem okOpenDict : OkL [123, 10] := by decide
theorem okCloseDict : OkL [125] := by decide
theorem okCommaNl : OkL [44, 10] := by decide
theorem okColonSp : OkL [34, 58, 32] := by decide
theorem okNullLit : OkL (s2 "null") := by decide
theorem okTrueLit : OkL (s2 "true") := by decide
theorem okFalseLit : OkL (s2 "false") := by decide
theorem okNanLit : OkL (s2 "NaN") := by decide
theorem okInfLit : OkL (s2 "Infinity") := by decide
theorem okNegInfLit : OkL (s2 "-Infinity") := by decide
theorem okEmptyList : OkL [91, 93] := by decide
theorem okEmptyDict : OkL [123, 125] := by decide

mutual

theorem dumpVal_ok : ∀ (v : PyVal) (lvl : Nat), OkL (dumpVal v lvl)
  | .PNone, _ => okNullLit
  | .PBool true, _ => okTrueLit
  | .PBool false, _ => okFalseLit
  | .PInt n, _ => OkL_of_ge (intDigitChars_ge n)
  | .PFloat m e, _ => OkL_of_ge (floatChars_ge m e)
  | .PNan, _ => okNanLit
  | .PInf, _ => okInfLit
  | .PNegInf, _ => okNegInfLit
  | .PStr s, _ =>
    OkL_append (OkL_append okQuote (OkL_of_ge (encStr_ge s))) okQuote
  | .PList .nil, _ => okEmptyList
  | .PList (.cons v t), lvl =>
    OkL_append
      (OkL_append
        (OkL_append (OkL_append okOpenList (dumpItems_ok (PyList.cons v t) (lvl + 2)))
          okNlBr)
        (indSp_ok lvl))
      okCloseList
  | .PDict .nil, _ => okEmptyDict
  | .PDict (.cons k v t), lvl =>
    OkL_append
      (OkL_append
        (OkL_append (OkL_append okOpenDict (dumpEntries_ok (PyKVs.cons k v t) (lvl + 2)))
          okNlBr)
        (indSp_ok lvl))
      okCloseDict

theorem dumpItems_ok : ∀ (xs : PyList) (lvl : Nat), OkL (dumpItems xs lvl)
  | .nil, _ => fun c hc => absurd hc (List.not_mem_nil c)
  | .cons v .nil, lvl => OkL_append (indSp_ok lvl) (dumpVal_ok v lvl)
  | .cons v (.cons w t), lvl =>
    OkL_append
      (OkL_append (OkL_append (indSp_ok lvl) (dumpVal_ok v lvl)) okCommaNl)
      (dumpItems_ok (PyList.cons w t) lvl)

theorem dumpEntries_ok : ∀ (kvs : PyKVs) (lvl : Nat), OkL (dumpEntries kvs lvl)
  | .nil, _ => fun c hc => absurd hc (List.not_mem_nil c)
  | .cons k v .nil, lvl =>
    OkL_append
      (OkL_append (OkL_append (OkL_append (indSp_ok lvl) okQuote)
        (OkL_of_ge (encStr_ge k))) okColonSp)
      (dumpVal_ok v lvl)
  | .cons k v (.cons k2 v2 t), lvl =>
    OkL_append
      (OkL_append
        (OkL_append
          (OkL_append (OkL_append (OkL_append (indSp_ok lvl) okQuote)
            (OkL_of_ge (encStr_ge k))) okColonSp)
          (dumpVal_ok v lvl))
        okCommaNl)
      (dumpEntries_ok (PyKVs.cons k2 v2 t) lvl)

end

/-- The control-safety predicate of C3: no character below code point 32
other than tab, newline, carriage return. -/
abbrev CtlSafe (s : List Nat) : Prop := ∀ c ∈ s, c < 32 → c = 9 ∨ c = 10 ∨ c = 13

theorem CtlSafe_of_OkL {s : List Nat} (h : OkL s) : CtlSafe s := by
  intro c hc hlt
  rcases h c hc with h' | h' <;> omega

theorem CtlSafe_append {a b : List Nat} (ha : CtlSafe a) (hb : CtlSafe b) :
    CtlSafe (a ++ b) := by
  intro c hc
  rcases List.mem_append.mp hc with h | h
  · exact ha c h
  · exact hb c h

theorem CtlSafe_stripCtl (s : List Nat) : CtlSafe (stripCtl s) := by
  intro c hc hlt
  unfold stripCtl at hc
  have := List.of_mem_filter hc
  simp only [Bool.or_eq_true, decide_eq_true_eq, beq_iff_eq] at this
  omega

theorem pyReplace_mem {pat : Nat} {rep s : List Nat} :
    ∀ c ∈ pyReplace pat rep s, c ∈ rep ∨ c ∈ s := by
  induction s with
  | nil => simp [pyReplace]
  | cons a t ih =>
    intro c hc
    unfold pyReplace at hc
    rcases List.mem_append.mp hc with h | h
    · split at h
      · exact Or.inl h
      · simp only [List.mem_cons, List.not_mem_nil, or_false] at h
        exact Or.inr (by simp [h])
    · rcases ih c h with h' | h'
      · exact Or.inl h'
      · exact Or.inr (List.mem_cons_of_mem a h')

theorem CtlSafe_pyReplace {pat : Nat} {rep s : List Nat}
    (hrep : CtlSafe rep) (hs : CtlSafe s) : CtlSafe (pyReplace pat rep s) := by
  intro c hc hlt
  rcases pyReplace_mem c hc with h | h
  · exact hrep c h hlt
  · exact hs c h hlt

theorem CtlSafe_mdEscape {s : List Nat} (hs : CtlSafe s) : CtlSafe (mdEscape s) := by
  unfold mdEscape
  apply CtlSafe_pyReplace (by decide)
  apply CtlSafe_pyReplace (by decide)
  apply CtlSafe_pyReplace (by decide)
  apply CtlSafe_pyReplace (by decide)
  exact CtlSafe_pyReplace (by decide) hs

theorem CtlSafe_joinChars1 (c : Nat) : CtlSafe (joinChars1 c) := by
  intro x hx hlt
  unfold joinChars1 at hx
  split_ifs at hx with h1 h2
  · simp at hx; omega
  · simp only [Bool.or_eq_true, beq_iff_eq] at h2
    simp at hx; omega
  · simp at hx

theorem joinElems_CtlSafe : ∀ (xs : PyList) (r : List Nat),
    joinElems xs = some r → CtlSafe r
  | .nil, r, h => by
    simp only [joinElems, Option.some_inj] at h
    subst h
    intro c hc
    simp at hc
  | .cons (.PStr [c]) t, r, h => by
    rw [show joinElems (.cons (.PStr [c]) t) =
      (joinElems t).map (fun r => joinChars1 c ++ r) from rfl,
      Option.map_eq_some'] at h
    obtain ⟨r', hr', rfl⟩ := h
    exact CtlSafe_append (CtlSafe_joinChars1 c) (joinElems_CtlSafe t r' hr')
  | .cons .PNone _, r, h => by simp [joinElems] at h
  | .cons (.PBool _) _, r, h => by simp [joinElems] at h
  | .cons (.PInt _) _, r, h => by simp [joinElems] at h
  | .cons (.PFloat _ _) _, r, h => by simp [joinElems] at h
  | .cons .PNan _, r, h => by simp [joinElems] at h
  | .cons .PInf _, r, h => by simp [joinElems] at h
  | .cons .PNegInf _, r, h => by simp [joinElems] at h
  | .cons (.PStr []) _, r, h => by simp [joinElems] at h
  | .cons (.PStr (_ :: _ :: _)) _, r, h => by simp [joinElems] at h
  | .cons (.PList _) _, r, h => by simp [joinElems] at h
  | .cons (.PDict _) _, r, h => by simp [joinElems] at h

theorem joinKeys_CtlSafe : ∀ (kvs : PyKVs) (r : List Nat),
    joinKeys kvs = some r → CtlSafe r
  | .nil, r, h => by
    simp only [joinKeys, Option.some_inj] at h
    subst h
    intro c hc
    simp at hc
  | .cons [c] v t, r, h => by
    rw [show joinKeys (.cons [c] v t) =
      (joinKeys t).map (fun r => joinChars1 c ++ r) from rfl,
      Option.map_eq_some'] at h
    obtain ⟨r', hr', rfl⟩ := h
    exact CtlSafe_append (CtlSafe_joinChars1 c) (joinKeys_CtlSafe t r' hr')
  | .cons [] _ _, r, h => by simp [joinKeys] at h
  | .cons (_ :: _ :: _) _ _, r, h => by simp [joinKeys] at h

/-- C3 (amended): whenever normalization completes — extraction does not
raise (`AttributeError` on a non-dict JSON body) and formatting does not
raise (`TypeError` on a non-string message) — the produced message string
contains no character below code point 32 other than tab, newline and
carriage return, for every byte-sequence body and either content-type
path. -/
theorem normalization_control_safe (isJsonCT : Bool) (body : List Nat)
    (m : PyVal) (f : List Nat)
    (_hext : extract_message isJsonCT body = some m)
    (hfmt : formatMessage m = some f) :
    ∀ c ∈ f, c < 32 → c = 9 ∨ c = 10 ∨ c = 13 := by
  match m with
  | .PStr s =>
    rcases hload : json_loads s with _ | v
    · simp only [formatMessage, hload, Option.some_inj] at hfmt
      subst hfmt
      exact CtlSafe_mdEscape (CtlSafe_stripCtl s)
    · simp only [formatMessage, hload, Option.some_inj] at hfmt
      subst hfmt
      unfold codeblock
      exact CtlSafe_append
        (CtlSafe_append (by decide) (CtlSafe_of_OkL (dumpVal_ok v 0))) (by decide)
  | .PList xs =>
    simp only [formatMessage, Option.map_eq_some'] at hfmt
    obtain ⟨r', hr', rfl⟩ := hfmt
    exact CtlSafe_mdEscape (joinElems_CtlSafe xs r' hr')
  | .PDict kvs =>
    simp only [formatMessage, Option.map_eq_some'] at hfmt
    obtain ⟨r', hr', rfl⟩ := hfmt
    exact CtlSafe_mdEscape (joinKeys_CtlSafe kvs r' hr')
  | .PNone => simp [formatMessage] at hfmt
  | .PBool b => simp [formatMessage] at hfmt
  | .PInt n => simp [formatMessage] at hfmt
  | .PFloat a b => simp [formatMessage] at hfmt
  | .PNan => simp [formatMessage] at hfmt
  | .PInf => simp [formatMessage] at hfmt
  | .PNegInf => simp [formatMessage] at hfmt

/-- Witness for C3 (amended): a body with markup, NUL, a control byte and
an invalid UTF-8 byte normalizes to a string whose only sub-32 characters
are in the tab/newline/CR set. -/
theorem normalization_control_safe_witness :
    extract_message false [42, 0, 1, 9, 104, 105, 200] =
      some (.PStr [42, 0, 1, 9, 104, 105, 65533]) ∧
    formatMessage (.PStr [42, 0, 1, 9, 104, 105, 65533]) =
      some [92, 42, 9, 104, 105, 65533] ∧
    (∀ c ∈ [92, 42, 9, 104, 105, 65533], c < 32 → c = 9 ∨ c = 10 ∨ c = 13) :=
  ⟨rfl, rfl,
    normalization_control_safe false [42, 0, 1, 9, 104, 105, 200]
      (.PStr [42, 0, 1, 9, 104, 105, 65533]) [92, 42, 9, 104, 105, 65533] rfl rfl⟩

/-!
### The free-text path: strip, then escape each markup character
-/

/-- Pointwise Markdown escaping: each of `_`, `*`, `[`, `]`, `` ` `` is
prefixed with a backslash, every other character is kept. -/
def escSingle (c : Nat) : List Nat :=
  if c = 95 ∨ c = 42 ∨ c = 91 ∨ c = 93 ∨ c = 96 then [92, c] else [c]

def escAll : List Nat → List Nat
  | [] => []
  | c :: t => escSingle c ++ escAll t

theorem pyReplace_append (pat : Nat) (rep a b : List Nat) :
    pyReplace pat rep (a ++ b) = pyReplace pat rep a ++ pyReplace pat rep b := by
  induction a with
  | nil => simp [pyReplace]
  | cons x t ih =>
    simp [pyReplace, ih, List.append_assoc]

theorem mdEscape_append (a b : List Nat) :
    mdEscape (a ++ b) = mdEscape a ++ mdEscape b := by
  simp only [mdEscape, pyReplace_append]

theorem mdEscape_single (c : Nat) : mdEscape [c] = escSingle c := by
  by_cases h95 : c = 95
  · subst h95; rfl
  · by_cases h42 : c = 42
    · subst h42; rfl
    · by_cases h91 : c = 91
      · subst h91; rfl
      · by_cases h93 : c = 93
        · subst h93; rfl
        · by_cases h96 : c = 96
          · subst h96; rfl
          · simp [mdEscape, pyReplace, escSingle, h95, h42, h91, h93, h96]

theorem mdEscape_eq_escAll (s : List Nat) : mdEscape s = escAll s := by
  induction s with
  | nil => rfl
  | cons c t ih =>
    rw [show (c :: t) = [c] ++ t from rfl, mdEscape_append, ih, mdEscape_single]
    rfl

/-- C7: free-text normalization first strips every character below code
point 32 except tab/newline/CR, then escapes each occurrence of `_`, `*`,
`[`, `]`, `` ` `` by prefixing it with a backslash: for every candidate
string that does not parse as JSON, the formatted message is exactly the
pointwise escape of the stripped string. -/
theorem free_text_strip_then_escape (s : List Nat)
    (h : json_loads s = none) :
    formatMessage (.PStr s) = some (escAll (stripCtl s)) := by
  simp only [formatMessage, h, mdEscape_eq_escAll]

/-- Witness for C7: the plain-text body `*bold* text` does not parse as
JSON and is delivered with both asterisks escaped. -/
theorem free_text_strip_then_escape_witness :
    json_loads (s2 "*bold* text") = none ∧
    formatMessage (.PStr (s2 "*bold* text")) = some (s2 "\\*bold\\* text") ∧
    escAll (stripCtl (s2 "*bold* text")) = s2 "\\*bold\\* text" :=
  ⟨rfl,
   by rw [free_text_strip_then_escape (s2 "*bold* text") rfl]; rfl,
   rfl⟩

/-!
### When the gateway reports an empty payload
-/

theorem u8d_ne_nil (b : Nat) (r : List Nat) : u8d (b :: r) ≠ [] := by
  unfold u8d
  repeat' split
  all_goals simp

theorem u8d_nil_iff (body : List Nat) : u8d body = [] ↔ body = [] := by
  cases body with
  | nil => simp [u8d]
  | cons b r =>
    constructor
    · intro h
      exact absurd h (u8d_ne_nil b r)
    · intro h
      cases h

/-- C9 (amended): the gateway's 400 "No message provided" occurs only when
the body is empty, or when the content type is `application/json` and the
cleaned body decodes to a JSON object whose `message` member is a falsy
Python value (such as the empty string, `0`, `false`, `null`, or an empty
container) — so for every other non-empty body normalization yields a
non-empty (truthy) message and the gateway does not return 400. -/
theorem webhook_400_inversion (store : List Row) (topic_name : List Nat)
    (isJsonCT : Bool) (raw_body : List Nat) (backendResp : Option Nat)
    (h400 : (webhook_handler store topic_name isJsonCT raw_body backendResp).status = 400) :
    raw_body = [] ∨
    (isJsonCT = true ∧ ∃ kvs, json_loads (clean_raw_body raw_body) = some (.PDict kvs) ∧
      pyFalsy (dictGet kvs (s2 "message") (.PStr (pyRepr (.PDict kvs)))) = true) := by
  unfold webhook_handler at h400
  cases hg : get_topic store topic_name with
  | none => simp [hg] at h400
  | some topic =>
    simp only [hg] at h400
    cases hext : extract_message isJsonCT raw_body with
    | none => simp [hext] at h400
    | some m =>
      simp only [hext] at h400
      by_cases hf : pyFalsy m = true
      · unfold extract_message at hext
        cases hj : isJsonCT with
        | false =>
          rw [hj] at hext
          simp only [Bool.false_eq_true, if_false, Option.some_inj] at hext
          subst hext
          left
          rw [← u8d_nil_iff]
          simpa [pyFalsy] using hf
        | true =>
          rw [hj] at hext
          simp only [if_true] at hext
          cases hload : json_loads (clean_raw_body raw_body) with
          | none =>
            rw [hload] at hext
            simp only [Option.some_inj] at hext
            subst hext
            left
            rw [← u8d_nil_iff]
            simpa [pyFalsy] using hf
          | some v =>
            rw [hload] at hext
            cases v with
            | PDict kvs =>
              right
              refine ⟨rfl, kvs, rfl, ?_⟩
              simp only [Option.some_inj] at hext
              rw [hext]
              exact hf
            | PNone => simp at hext
            | PBool b => simp at hext
            | PInt n => simp at hext
            | PFloat a b => simp at hext
            | PNan => simp at hext
            | PInf => simp at hext
            | PNegInf => simp at hext
            | PStr s => simp at hext
            | PList xs => simp at hext
      · rw [Bool.not_eq_true] at hf
        simp only [hf, Bool.false_eq_true, if_false] at h400
        cases hfmt : formatMessage m with
        | none => simp [hfmt] at h400
        | some f =>
          simp only [hfmt] at h400
          cases backendResp with
          | none => simp at h400
          | some st =>
            by_cases hst : st = 200
            · subst hst; simp at h400
            · simp [hst] at h400

/-- Witness for C9 (amended), applying the inversion at the concrete 400
seen for body `{"message":""}`. -/
theorem webhook_400_inversion_witness :
    s2 "\x7b\"message\":\"\"\x7d" = [] ∨
    (true = true ∧ ∃ kvs,
      json_loads (clean_raw_body (s2 "\x7b\"message\":\"\"\x7d")) = some (.PDict kvs) ∧
      pyFalsy (dictGet kvs (s2 "message") (.PStr (pyRepr (.PDict kvs)))) = true) :=
  webhook_400_inversion [⟨s2 "alerts-1", 42, 42⟩] (s2 "alerts-1") true
    (s2 "\x7b\"message\":\"\"\x7d") (some 200) rfl

/-!
### Round trip: `json.loads (json.dumps v, indent=2) = v`

The idempotence claim C8 reduces to re-parsing a pretty-printed value.  It
holds for the values `json.loads` itself can produce: dict keys are
distinct, floats are canonical exact decimals, strings contain code points
below `0x110000` and no adjacent high/low surrogate pair (Python's parser
would merge the pair's escapes into one code point on re-parse).
-/

/-- No adjacent high surrogate followed by low surrogate. -/
def noAdjSurr : List Nat → Bool
  | a :: b :: t =>
    !(55296 ≤ a && a ≤ 56319 && 56320 ≤ b && b ≤ 57343) && noAdjSurr (b :: t)
  | _ => true

/-- Well-formed Python string: representable code points, no adjacent
surrogate pair. -/
def wfStr (s : List Nat) : Bool := s.all (fun c => c < 1114112) && noAdjSurr s

/-- Canonical exact-decimal float, as produced by `mkFloat`. -/
def wfFloat (m e : Int) : Bool :=
  (m == 0 && e == 0) || (m != 0 && e ≤ 0 && (e == 0 || m % 10 != 0))

mutual

/-- Well-formedness of a parsed value (everything `json_loads` returns
satisfies this). -/
def wfV : PyVal → Bool
  | .PStr s => wfStr s
  | .PFloat m e => wfFloat m e
  | .PList xs => wfL xs
  | .PDict kvs => wfKVs kvs
  | _ => true

def wfL : PyList → Bool
  | .nil => true
  | .cons v t => wfV v && wfL t

def wfKVs : PyKVs → Bool
  | .nil => true
  | .cons k v t => wfStr k && !(keyMem k t) && wfV v && wfKVs t

end

mutual

/-- Fuel sufficient for `pv` to re-parse a dumped value. -/
def needV : PyVal → Nat
  | .PList .nil => 1
  | .PList (.cons v t) => 1 + needL (PyList.cons v t)
  | .PDict .nil => 1
  | .PDict (.cons k v t) => 1 + needKVs (PyKVs.cons k v t)
  | _ => 1

def needL : PyList → Nat
  | .nil => 1
  | .cons v t => 1 + needV v + needL t

def needKVs : PyKVs → Nat
  | .nil => 1
  | .cons _ v t => 1 + needV v + needKVs t

end

/-- Append on the dict representation. -/
def kvAppend : PyKVs → PyKVs → PyKVs
  | .nil, y => y
  | .cons k v t, y => .cons k v (kvAppend t y)

/-- What follows one dumped array item: either the closing of the array or
a comma, newline, indentation and the next item. -/
def itemsSuffix (L lvlc : Nat) (rest : List Nat) : PyList → List Nat
  | .nil => 10 :: (indSp lvlc ++ 93 :: rest)
  | .cons w t => 44 :: 10 :: (indSp L ++ dumpVal w L ++ itemsSuffix L lvlc rest t)

/-- What follows one dumped object entry. -/
def entriesSuffix (L lvlc : Nat) (rest : List Nat) : PyKVs → List Nat
  | .nil => 10 :: (indSp lvlc ++ 125 :: rest)
  | .cons k v t =>
    44 :: 10 :: (indSp L ++ 34 :: (encStr k ++ 34 :: 58 :: 32 ::
      (dumpVal v L ++ entriesSuffix L lvlc rest t)))

/-- Tails that can legitimately follow a value inside a dumped document:
nothing, a comma, or a newline.  None of these characters can extend a
number, a literal name or a string. -/
def GoodTail (rest : List Nat) : Prop :=
  rest = [] ∨ ∃ c r, rest = c :: r ∧ (c = 44 ∨ c = 10)

/-- Characters that can start a dumped value. -/
def valueStart (c : Nat) : Bool :=
  c == 34 || c == 91 || c == 123 || c == 110 || c == 116 || c == 102 ||
  c == 78 || c == 73 || c == 45 || isDigit c

section SkipWsLemmas

theorem skipWs_not_ws {c : Nat} (h : (c == 32 || c == 9 || c == 10 || c == 13) = false)
    (r : List Nat) : skipWs (c :: r) = c :: r := by
  unfold skipWs
  rw [List.dropWhile_cons_of_neg]
  simp [h]

theorem skipWs_indSp (n : Nat) (r : List Nat) : skipWs (indSp n ++ r) = skipWs r := by
  induction n with
  | zero => simp [indSp]
  | succ k ih =>
    have : indSp (k + 1) = 32 :: indSp k := by
      simp [indSp, List.replicate_succ]
    rw [this]
    simp only [List.cons_append]
    unfold skipWs
    rw [List.dropWhile_cons_of_pos (by simp)]
    exact ih

theorem skipWs_nl (r : List Nat) : skipWs (10 :: r) = skipWs r := by
  unfold skipWs
  rw [List.dropWhile_cons_of_pos (by simp)]

theorem skipWs_valueStart {c : Nat} (h : valueStart c = true) (r : List Nat) :
    skipWs (c :: r) = c :: r := by
  apply skipWs_not_ws
  unfold valueStart at h
  simp only [Bool.or_eq_true, beq_iff_eq] at h
  simp only [Bool.or_eq_false_iff, beq_eq_false_iff_ne, ne_eq]
  unfold isDigit at h
  rcases h with ((((((((h | h) | h) | h) | h) | h) | h) | h) | h) | h <;>
    first
    | (subst h; refine ⟨⟨⟨?_, ?_⟩, ?_⟩, ?_⟩ <;> norm_num)
    | (simp only [Bool.and_eq_true, decide_eq_true_eq] at h; omega)

end SkipWsLemmas

section DigitLemmas

theorem natDigitsAux_eq (f : Nat) : ∀ n : Nat, n ≤ f →
    natDigitsAux f n = (Nat.digits 10 n).map (fun d => 48 + d) := by
  induction f with
  | zero =>
    intro n hn
    have : n = 0 := by omega
    subst this
    simp [natDigitsAux]
  | succ f ih =>
    intro n hn
    cases n with
    | zero => simp [natDigitsAux]
    | succ k =>
      have hdiv : (k + 1) / 10 ≤ f := by
        have := Nat.div_lt_self (Nat.succ_pos k) (by norm_num : 1 < 10)
        omega
      rw [show natDigitsAux (f + 1) (k + 1) =
        (48 + (k + 1) % 10) :: natDigitsAux f ((k + 1) / 10) from rfl]
      rw [ih ((k + 1) / 10) hdiv]
      rw [Nat.digits_def' (by norm_num : (1:ℕ) < 10) (Nat.succ_pos k)]
      simp

theorem foldl_digits (ds : List Nat) : ∀ a : Nat,
    List.foldl (fun x c => x * 10 + (c - 48)) a ((ds.map (fun d => 48 + d)).reverse) =
      a * 10 ^ ds.length + Nat.ofDigits 10 ds := by
  induction ds with
  | nil => intro a; simp
  | cons d t ih =>
    intro a
    simp only [List.map_cons, List.reverse_cons, List.foldl_append, ih, List.foldl_cons,
      List.foldl_nil, Nat.ofDigits_cons, List.length_cons]
    have : 48 + d - 48 = d := by omega
    rw [this, pow_succ]
    ring

theorem natOfDigits_natDigitChars (n : Nat) : natOfDigits (natDigitChars n) = n := by
  unfold natDigitChars natOfDigits
  split
  · subst ‹n = 0›
    rfl
  · rw [natDigitsAux_eq (n + 1) n (by omega), foldl_digits]
    simp [Nat.ofDigits_digits]

theorem natDigitChars_digit (n : Nat) : ∀ c ∈ natDigitChars n, isDigit c = true := by
  intro c hc
  unfold natDigitChars at hc
  split at hc
  · simp only [List.mem_cons, List.not_mem_nil, or_false] at hc
    subst hc
    rfl
  · rw [List.mem_reverse, natDigitsAux_eq (n + 1) n (by omega), List.mem_map] at hc
    obtain ⟨d, hd, rfl⟩ := hc
    have := Nat.digits_lt_base (by norm_num : 1 < 10) hd
    simp only [isDigit, Bool.and_eq_true, decide_eq_true_eq]
    omega

theorem natDigitChars_shape (n : Nat) :
    (n = 0 ∧ natDigitChars n = [48]) ∨
    (∃ c t, natDigitChars n = c :: t ∧ isDigit c = true ∧ c ≠ 48 ∧
      ∀ x ∈ t, isDigit x = true) := by
  by_cases h : n = 0
  · subst h
    exact Or.inl ⟨rfl, rfl⟩
  · right
    have hne : Nat.digits 10 n ≠ [] := Nat.digits_ne_nil_iff_ne_zero.mpr h
    have hchars : natDigitChars n = ((Nat.digits 10 n).map (fun d => 48 + d)).reverse := by
      unfold natDigitChars
      rw [if_neg h, natDigitsAux_eq (n + 1) n (by omega)]
    cases hrev : natDigitChars n with
    | nil =>
      rw [hchars] at hrev
      simp at hrev
      exact absurd hrev hne
    | cons c t =>
      refine ⟨c, t, rfl, natDigitChars_digit n c (by rw [hrev]; exact List.mem_cons_self _ _), ?_, ?_⟩
      · have hh : (((Nat.digits 10 n).map (fun d => 48 + d)).reverse).head? = some c := by
          rw [← hchars, hrev]; rfl
        rw [List.head?_reverse, List.getLast?_map] at hh
        have hlast := List.getLast?_eq_getLast (Nat.digits 10 n) hne
        rw [hlast] at hh
        simp only [Option.map_some', Option.some_inj] at hh
        have hnz := Nat.getLast_digit_ne_zero 10 h
        omega
      · intro x hx
        exact natDigitChars_digit n x (by rw [hrev]; exact List.mem_cons_of_mem c hx)

theorem span_digits (t : List Nat) (rest : List Nat)
    (ht : ∀ x ∈ t, isDigit x = true)
    (hrest : ∀ c, rest.head? = some c → isDigit c = false) :
    (t ++ rest).takeWhile isDigit = t ∧ (t ++ rest).dropWhile isDigit = rest := by
  induction t with
  | nil =>
    simp only [List.nil_append]
    cases rest with
    | nil => simp
    | cons c r =>
      have := hrest c rfl
      constructor
      · rw [List.takeWhile_cons_of_neg (by simp [this])]
      · rw [List.dropWhile_cons_of_neg (by simp [this])]
  | cons x xs ih =>
    have hx : isDigit x = true := ht x (List.mem_cons_self _ _)
    have ih' := ih (fun y hy => ht y (List.mem_cons_of_mem x hy))
    simp only [List.cons_append]
    constructor
    · rw [List.takeWhile_cons_of_pos (by simp [hx])]
      rw [ih'.1]
    · rw [List.dropWhile_cons_of_pos (by simp [hx])]
      exact ih'.2

theorem parseIntPart_digits (n : Nat) (rest : List Nat)
    (hrest : ∀ c, rest.head? = some c → isDigit c = false) :
    parseIntPart (natDigitChars n ++ rest) = some (natDigitChars n, rest) := by
  rcases natDigitChars_shape n with ⟨_, heq⟩ | ⟨c, t, heq, hd, hne, ht⟩
  · rw [heq]
    rfl
  · rw [heq]
    simp only [List.cons_append, parseIntPart, if_neg hne, if_pos hd]
    rw [(span_digits t rest ht hrest).1, (span_digits t rest ht hrest).2]

end DigitLemmas

section NumberRoundTrip

theorem GoodTail_head (rest : List Nat) (h : GoodTail rest) :
    ∀ c, rest.head? = some c → isDigit c = false ∧ c ≠ 46 ∧ c ≠ 101 ∧ c ≠ 69 := by
  intro c hc
  rcases h with rfl | ⟨x, r, rfl, hx⟩
  · simp at hc
  · simp only [List.head?_cons, Option.some_inj] at hc
    subst hc
    rcases hx with rfl | rfl <;> exact ⟨rfl, by norm_num, by norm_num, by norm_num⟩

theorem natOfDigits_append_one (l : List Nat) (d : Nat) :
    natOfDigits (l ++ [d]) = natOfDigits l * 10 + (d - 48) := by
  simp [natOfDigits, List.foldl_append]

theorem natOfDigits_pad (j : Nat) (l : List Nat) :
    natOfDigits (List.replicate j 48 ++ l) = natOfDigits l := by
  induction j with
  | zero => simp
  | succ k ih =>
    rw [List.replicate_succ]
    simpa [natOfDigits] using ih

/-- Re-parsing the decimal print of an `int`. -/
theorem parseNumber_int (n : Int) (rest : List Nat) (hg : GoodTail rest) :
    parseNumber (intDigitChars n ++ rest) = some (.PInt n, rest) := by
  have hrest := GoodTail_head rest hg
  have hrestD : ∀ c, rest.head? = some c → isDigit c = false := fun c hc => (hrest c hc).1
  have core : ∀ (a : Nat), (headIs (natDigitChars a ++ rest) 45) = false := by
    intro a
    rcases natDigitChars_shape a with ⟨_, heq⟩ | ⟨c, t, heq, hd, _, _⟩
    · rw [heq]; rfl
    · rw [heq]
      simp only [List.cons_append, headIs, beq_eq_false_iff_ne, ne_eq]
      simp only [isDigit, Bool.and_eq_true, decide_eq_true_eq] at hd
      omega
  have hfracexp : ∀ (ids : List Nat),
      (match rest with
        | 46 :: rf => if (rf.takeWhile isDigit).isEmpty = true then (ids, rest)
                      else (rf.takeWhile isDigit, rf.dropWhile isDigit)
        | _ => (ids, rest)) = (ids, rest) := by
    intro ids
    rcases hg with rfl | ⟨x, r, rfl, hx⟩
    · rfl
    · rcases hx with rfl | rfl <;> rfl
  by_cases hneg : n < 0
  · rw [show intDigitChars n = 45 :: natDigitChars n.natAbs from by
      unfold intDigitChars; rw [if_pos hneg]]
    rw [List.cons_append]
    unfold parseNumber
    rw [show headIs (45 :: (natDigitChars n.natAbs ++ rest)) 45 = true from rfl]
    simp only [if_true, List.tail_cons]
    rw [parseIntPart_digits n.natAbs rest hrestD]
    rcases hg with rfl | ⟨x, r, rfl, hx⟩
    · all_goals simp [natOfDigits_natDigitChars, -Int.natCast_natAbs]
      all_goals omega
    · rcases hx with rfl | rfl
      all_goals simp [natOfDigits_natDigitChars, -Int.natCast_natAbs]
      all_goals omega
  · rw [show intDigitChars n = natDigitChars n.natAbs from by
      unfold intDigitChars; rw [if_neg hneg]]
    unfold parseNumber
    rw [core n.natAbs]
    simp only [Bool.false_eq_true, if_false]
    rw [parseIntPart_digits n.natAbs rest hrestD]
    rcases hg with rfl | ⟨x, r, rfl, hx⟩
    · all_goals simp [natOfDigits_natDigitChars, -Int.natCast_natAbs]
      all_goals omega
    · rcases hx with rfl | rfl
      all_goals simp [natOfDigits_natDigitChars, -Int.natCast_natAbs]
      all_goals omega

/-- Shape hypothesis for a valid JSON integer-part digit string. -/
def IntPartShape (I : List Nat) : Prop :=
  I = [48] ∨ (∃ c t, I = c :: t ∧ isDigit c = true ∧ c ≠ 48 ∧ ∀ x ∈ t, isDigit x = true)

theorem parseIntPart_shape (I rest' : List Nat) (hI : IntPartShape I)
    (hrest : ∀ c, rest'.head? = some c → isDigit c = false) :
    parseIntPart (I ++ rest') = some (I, rest') := by
  rcases hI with rfl | ⟨c, t, rfl, hd, hne, ht⟩
  · cases rest' with
    | nil => rfl
    | cons x r => simp [parseIntPart]
  · simp only [List.cons_append, parseIntPart, if_neg hne, if_pos hd]
    rw [(span_digits t rest' ht hrest).1, (span_digits t rest' ht hrest).2]

/-- Re-parsing a decimal with a fractional part (no exponent). -/
theorem parseNumber_frac (sgnNeg : Bool) (I F rest : List Nat)
    (hI : IntPartShape I) (hFne : F ≠ []) (hFd : ∀ x ∈ F, isDigit x = true)
    (hg : GoodTail rest) :
    parseNumber ((if sgnNeg then [45] else []) ++ (I ++ 46 :: (F ++ rest))) =
      some (mkFloat ((if sgnNeg then -1 else 1) * (natOfDigits (I ++ F) : Int))
        (-(F.length : Int)), rest) := by
  have hrest := GoodTail_head rest hg
  have hrestD : ∀ c, rest.head? = some c → isDigit c = false := fun c hc => (hrest c hc).1
  have hdotD : ∀ c, (46 :: (F ++ rest)).head? = some c → isDigit c = false := by
    intro c hc
    simp only [List.head?_cons, Option.some_inj] at hc
    subst hc
    rfl
  have hip := parseIntPart_shape I (46 :: (F ++ rest)) hI hdotD
  have hspan := span_digits F rest hFd hrestD
  have hFe : F.isEmpty = false := by
    cases F with
    | nil => exact absurd rfl hFne
    | cons a b => rfl
  cases sgnNeg with
  | true =>
    simp only [if_true, List.singleton_append]
    unfold parseNumber
    rw [show headIs (45 :: (I ++ 46 :: (F ++ rest))) 45 = true from rfl]
    simp only [if_true, List.tail_cons]
    rw [hip]
    simp only [hspan.1, hspan.2, hFe]
    rcases hg with rfl | ⟨x, r, rfl, hx⟩
    · rfl
    · rcases hx with rfl | rfl <;> rfl
  | false =>
    have hh45 : headIs (I ++ 46 :: (F ++ rest)) 45 = false := by
      rcases hI with rfl | ⟨c, t, rfl, hd, _, _⟩
      · rfl
      · simp only [List.cons_append, headIs, beq_eq_false_iff_ne, ne_eq]
        simp only [isDigit, Bool.and_eq_true, decide_eq_true_eq] at hd
        omega
    simp only [Bool.false_eq_true, if_false, List.nil_append]
    unfold parseNumber
    rw [hh45]
    simp only [Bool.false_eq_true, if_false]
    rw [hip]
    simp only [hspan.1, hspan.2, hFe]
    rcases hg with rfl | ⟨x, r, rfl, hx⟩
    · rfl
    · rcases hx with rfl | rfl <;> rfl

theorem natDigitChars_ne_nil (n : Nat) : natDigitChars n ≠ [] := by
  rcases natDigitChars_shape n with ⟨_, heq⟩ | ⟨c, t, heq, _, _, _⟩ <;> simp [heq]

theorem canonFloatAux_step (m : Int) :
    canonFloatAux (m * 10) 1 = (m, 0) := by
  unfold canonFloatAux
  rw [if_pos (by simp [Int.mul_emod_left])]
  rw [Int.mul_ediv_cancel m (by norm_num : (10 : Int) ≠ 0)]
  rfl

theorem mkFloat_times10 (m : Int) (hm : m ≠ 0) : mkFloat (m * 10) (-1) = .PFloat m 0 := by
  unfold mkFloat
  rw [if_neg (by intro h; exact hm (by omega)), if_neg (by norm_num)]
  rw [show ((-(-1 : Int)).toNat) = 1 from rfl, canonFloatAux_step m]

theorem mkFloat_canon (m : Int) (k : Nat) (hk : 0 < k) (hm : m ≠ 0)
    (hmod : m % 10 ≠ 0) : mkFloat m (-(k : Int)) = .PFloat m (-(k : Int)) := by
  unfold mkFloat
  rw [if_neg hm, if_neg (by omega)]
  have htn : ((-(-(k : Int))).toNat) = k := by omega
  rw [htn]
  cases k with
  | zero => omega
  | succ k0 =>
    have hca : canonFloatAux m (k0 + 1) = (m, -(((k0 + 1 : Nat)) : Int)) := by
      unfold canonFloatAux
      rw [if_neg (by simpa using hmod)]
      congr 1
    rw [hca]

/-- Re-parsing the decimal print of a canonical float. -/
theorem parseNumber_floatChars (m e : Int) (rest : List Nat)
    (hwf : wfFloat m e = true) (hg : GoodTail rest) :
    parseNumber (floatChars m e ++ rest) = some (.PFloat m e, rest) := by
  simp only [wfFloat, Bool.or_eq_true, Bool.and_eq_true, beq_iff_eq, bne_iff_ne, ne_eq,
    decide_eq_true_eq] at hwf
  by_cases he0 : e = 0
  · subst he0
    have hlen1 : 1 ≤ (natDigitChars m.natAbs).length :=
      List.length_pos.mpr (natDigitChars_ne_nil m.natAbs)
    have h0 : 0 + 1 - (natDigitChars m.natAbs).length = 0 := by omega
    have hfc : floatChars m 0 ++ rest =
        (if m < 0 then [45] else []) ++ (natDigitChars m.natAbs ++ 46 :: ([48] ++ rest)) := by
      simp [floatChars, h0, List.take_length, List.append_assoc]
    rw [hfc]
    have hI : IntPartShape (natDigitChars m.natAbs) := by
      rcases natDigitChars_shape m.natAbs with ⟨_, heq⟩ | ⟨c, t, heq, hd, hne, ht⟩
      · exact Or.inl heq
      · exact Or.inr ⟨c, t, heq, hd, hne, ht⟩
    have hF48 : ∀ x ∈ [48], isDigit x = true := by
      intro x hx
      simp only [List.mem_cons, List.not_mem_nil, or_false] at hx
      subst hx
      rfl
    by_cases hmn : m < 0
    · rw [show (if m < 0 then [45] else []) = (if (true : Bool) then [45] else []) from by
        rw [if_pos hmn]; rfl]
      rw [parseNumber_frac true (natDigitChars m.natAbs) [48] rest hI (by simp) hF48 hg]
      have hm0 : m ≠ 0 := by omega
      rw [natOfDigits_append_one, natOfDigits_natDigitChars]
      rw [show ((if (true : Bool) then (-1 : Int) else 1) *
        ((m.natAbs * 10 + (48 - 48) : Nat) : Int)) = m * 10 from by
          simp only [if_true]
          push_cast [Int.natCast_natAbs]
          rw [abs_of_nonpos (le_of_lt hmn)]
          ring]
      rw [show (-(([48] : List Nat).length : Int)) = -1 from by norm_num]
      rw [mkFloat_times10 m hm0]
    · rw [show (if m < 0 then [45] else []) = (if (false : Bool) then [45] else []) from by
        rw [if_neg hmn]; rfl]
      rw [parseNumber_frac false (natDigitChars m.natAbs) [48] rest hI (by simp) hF48 hg]
      rw [natOfDigits_append_one, natOfDigits_natDigitChars]
      by_cases hm0 : m = 0
      · subst hm0
        norm_num
        rfl
      · rw [show ((if (false : Bool) then (-1 : Int) else 1) *
          ((m.natAbs * 10 + (48 - 48) : Nat) : Int)) = m * 10 from by
            simp only [Bool.false_eq_true, if_false]
            push_cast [Int.natCast_natAbs]
            rw [abs_of_nonneg (by omega : (0:Int) ≤ m)]
            ring]
        rw [show (-(([48] : List Nat).length : Int)) = -1 from by norm_num]
        rw [mkFloat_times10 m hm0]
  · have hm0 : m ≠ 0 := by
      rcases hwf with ⟨_, h2⟩ | ⟨⟨h1, _⟩, _⟩
      · exact absurd h2 he0
      · exact h1
    have hmod : m % 10 ≠ 0 := by
      rcases hwf with ⟨_, h2⟩ | ⟨_, h2⟩
      · exact absurd h2 he0
      · rcases h2 with h2 | h2
        · exact absurd h2 he0
        · exact h2
    have hele : e ≤ 0 := by
      rcases hwf with ⟨_, h2⟩ | ⟨⟨_, h1⟩, _⟩
      · exact absurd h2 he0
      · exact h1
    have hkpos : 0 < (-e).toNat := by omega
    have hek : e = -((((-e).toNat : Nat)) : Int) := by omega
    rw [hek]
    generalize hkk : (-e).toNat = k at hkpos
    have hds1 : 1 ≤ (natDigitChars m.natAbs).length :=
      List.length_pos.mpr (natDigitChars_ne_nil m.natAbs)
    have hdd := natDigitChars_digit m.natAbs
    have hdsd : ∀ x ∈ List.replicate (k + 1 - (natDigitChars m.natAbs).length) 48 ++
        natDigitChars m.natAbs, isDigit x = true := by
      intro x hx
      rcases List.mem_append.mp hx with h | h
      · rw [List.eq_of_mem_replicate h]; rfl
      · exact hdd x h
    have hL : k + 1 ≤ (List.replicate (k + 1 - (natDigitChars m.natAbs).length) 48 ++
        natDigitChars m.natAbs).length := by
      simp only [List.length_append, List.length_replicate]
      omega
    have hfc : floatChars m (-(k : Int)) ++ rest =
        (if m < 0 then [45] else []) ++
        ((List.replicate (k + 1 - (natDigitChars m.natAbs).length) 48 ++
            natDigitChars m.natAbs).take
          ((List.replicate (k + 1 - (natDigitChars m.natAbs).length) 48 ++
            natDigitChars m.natAbs).length - k) ++
        46 :: ((List.replicate (k + 1 - (natDigitChars m.natAbs).length) 48 ++
            natDigitChars m.natAbs).drop
          ((List.replicate (k + 1 - (natDigitChars m.natAbs).length) 48 ++
            natDigitChars m.natAbs).length - k) ++ rest)) := by
      have htn : ((-(-(k : Int))).toNat) = k := by omega
      simp only [floatChars, htn, if_neg (by omega : ¬ k = 0)]
      simp [List.append_assoc]
    rw [hfc]
    generalize hD : List.replicate (k + 1 - (natDigitChars m.natAbs).length) 48 ++
        natDigitChars m.natAbs = D at hdsd hL
    have hDval : natOfDigits D = m.natAbs := by
      rw [← hD, natOfDigits_pad, natOfDigits_natDigitChars]
    have hFlen : (D.drop (D.length - k)).length = k := by
      rw [List.length_drop]
      omega
    have hFne : D.drop (D.length - k) ≠ [] := by
      intro h
      rw [h] at hFlen
      simp at hFlen
      omega
    have hFd : ∀ x ∈ D.drop (D.length - k), isDigit x = true :=
      fun x hx => hdsd x (List.drop_subset _ _ hx)
    have hIshape : IntPartShape (D.take (D.length - k)) := by
      by_cases hpad : (natDigitChars m.natAbs).length ≤ k
      · left
        have hj : ∃ j, k + 1 - (natDigitChars m.natAbs).length = j + 1 := ⟨k - (natDigitChars m.natAbs).length, by omega⟩
        obtain ⟨j, hj⟩ := hj
        have hD' : D = 48 :: (List.replicate j 48 ++ natDigitChars m.natAbs) := by
          rw [← hD, hj, List.replicate_succ]
          rfl
        have hDlen : D.length = k + 1 := by
          rw [← hD]
          simp only [List.length_append, List.length_replicate]
          omega
        rw [show (D.length - k) = 1 from by omega, hD']
        rfl
      · have hpad0 : k + 1 - (natDigitChars m.natAbs).length = 0 := by omega
        have hD' : D = natDigitChars m.natAbs := by
          rw [← hD, hpad0]
          rfl
        rcases natDigitChars_shape m.natAbs with ⟨hm00, _⟩ | ⟨c, t, heq, hd, hne, ht⟩
        · exfalso
          omega
        · have hDlen : D.length = t.length + 1 := by
            rw [hD', heq]
            rfl
          have hex : ∃ j, D.length - k = j + 1 := ⟨D.length - k - 1, by omega⟩
          obtain ⟨j, hj⟩ := hex
          right
          refine ⟨c, t.take j, ?_, hd, hne, ?_⟩
          · rw [hj, hD', heq]
            rfl
          · intro x hx
            exact ht x (List.take_subset _ _ hx)
    by_cases hmn : m < 0
    · rw [show (if m < 0 then [45] else []) = (if (true : Bool) then [45] else []) from by
        rw [if_pos hmn]; rfl]
      rw [parseNumber_frac true (D.take (D.length - k)) (D.drop (D.length - k)) rest
        hIshape hFne hFd hg]
      rw [List.take_append_drop, hDval, hFlen]
      rw [show ((if (true : Bool) then (-1 : Int) else 1) * ((m.natAbs : Nat) : Int)) = m from by
        simp only [if_true]
        rw [Int.natCast_natAbs, abs_of_nonpos (le_of_lt hmn)]
        ring]
      rw [mkFloat_canon m k hkpos hm0 hmod]
    · rw [show (if m < 0 then [45] else []) = (if (false : Bool) then [45] else []) from by
        rw [if_neg hmn]; rfl]
      rw [parseNumber_frac false (D.take (D.length - k)) (D.drop (D.length - k)) rest
        hIshape hFne hFd hg]
      rw [List.take_append_drop, hDval, hFlen]
      rw [show ((if (false : Bool) then (-1 : Int) else 1) * ((m.natAbs : Nat) : Int)) = m from by
        simp only [Bool.false_eq_true, if_false]
        rw [Int.natCast_natAbs, abs_of_nonneg (by omega : (0:Int) ≤ m)]
        ring]
      rw [mkFloat_canon m k hkpos hm0 hmod]

end NumberRoundTrip

section StringRoundTrip

theorem hexVal_hexDigitCh (k : Nat) (hk : k < 16) : hexVal (hexDigitCh k) = some k := by
  unfold hexVal hexDigitCh
  split_ifs <;> simp_all <;> omega

theorem parseHex4_hex4 (n : Nat) (hn : n < 65536) (r : List Nat) :
    parseHex4 (hex4 n ++ r) = some (n, r) := by
  have h1 : n / 4096 % 16 < 16 := Nat.mod_lt _ (by norm_num)
  have h2 : n / 256 % 16 < 16 := Nat.mod_lt _ (by norm_num)
  have h3 : n / 16 % 16 < 16 := Nat.mod_lt _ (by norm_num)
  have h4 : n % 16 < 16 := Nat.mod_lt _ (by norm_num)
  simp only [hex4, List.cons_append, List.nil_append, parseHex4,
    hexVal_hexDigitCh _ h1, hexVal_hexDigitCh _ h2, hexVal_hexDigitCh _ h3,
    hexVal_hexDigitCh _ h4]
  congr 2
  omega

theorem noAdjSurr_tail {c : Nat} {s : List Nat} (h : noAdjSurr (c :: s) = true) :
    noAdjSurr s = true := by
  cases s with
  | nil => rfl
  | cons b t =>
    unfold noAdjSurr at h
    rw [Bool.and_eq_true] at h
    exact h.2

theorem noAdjSurr_head {c b : Nat} {s : List Nat} (h : noAdjSurr (c :: b :: s) = true) :
    ¬(55296 ≤ c ∧ c ≤ 56319 ∧ 56320 ≤ b ∧ b ≤ 57343) := by
  unfold noAdjSurr at h
  rw [Bool.and_eq_true] at h
  have h1 := h.1
  simp only [Bool.not_eq_true', Bool.and_eq_false_iff, decide_eq_false_iff_not, not_le] at h1
  omega

/-- Head shape of an encoded character, as needed for the surrogate-pair
peek: a short escape with a non-`u` second character, a raw character that
is not a backslash, or a `\uXXXX` escape whose value is a low surrogate
only if the character itself is one. -/
theorem encChar_shape (c : Nat) (hc : c < 1114112) :
    (∃ x, encChar c = [92, x] ∧ x ≠ 117) ∨
    (encChar c = [c] ∧ c ≠ 92) ∨
    (∃ v t0, encChar c = 92 :: 117 :: (hex4 v ++ t0) ∧ v < 65536 ∧
      (56320 ≤ v ∧ v ≤ 57343 → 56320 ≤ c ∧ c ≤ 57343)) := by
  unfold encChar
  by_cases h34 : c = 34
  · rw [if_pos h34]; exact Or.inl ⟨34, rfl, by norm_num⟩
  rw [if_neg h34]
  by_cases h92 : c = 92
  · rw [if_pos h92]; exact Or.inl ⟨92, rfl, by norm_num⟩
  rw [if_neg h92]
  by_cases h8 : c = 8
  · rw [if_pos h8]; exact Or.inl ⟨98, rfl, by norm_num⟩
  rw [if_neg h8]
  by_cases h9 : c = 9
  · rw [if_pos h9]; exact Or.inl ⟨116, rfl, by norm_num⟩
  rw [if_neg h9]
  by_cases h10 : c = 10
  · rw [if_pos h10]; exact Or.inl ⟨110, rfl, by norm_num⟩
  rw [if_neg h10]
  by_cases h12 : c = 12
  · rw [if_pos h12]; exact Or.inl ⟨102, rfl, by norm_num⟩
  rw [if_neg h12]
  by_cases h13 : c = 13
  · rw [if_pos h13]; exact Or.inl ⟨114, rfl, by norm_num⟩
  rw [if_neg h13]
  by_cases hlt32 : c < 32
  · rw [if_pos hlt32]
    exact Or.inr (Or.inr ⟨c, [], by simp, by omega, by omega⟩)
  rw [if_neg hlt32]
  by_cases hlt127 : c < 127
  · rw [if_pos hlt127]
    exact Or.inr (Or.inl ⟨rfl, h92⟩)
  rw [if_neg hlt127]
  by_cases hlt65536 : c < 65536
  · rw [if_pos hlt65536]
    exact Or.inr (Or.inr ⟨c, [], by simp, hlt65536, fun h => h⟩)
  · rw [if_neg hlt65536]
    refine Or.inr (Or.inr ⟨55296 + (c - 65536) / 1024,
      92 :: 117 :: hex4 (56320 + (c - 65536) % 1024), by simp, ?_, ?_⟩)
    · have : (c - 65536) / 1024 < 1024 := by
        have : c - 65536 < 1048576 := by omega
        omega
      omega
    · intro h
      have : (c - 65536) / 1024 ≥ 1024 := by omega
      have hlt : c - 65536 < 1048576 := by omega
      omega


/-- One-step reduction of the scanner on a `\u` escape. -/
theorem parseStrF_u (f : Nat) (r2 : List Nat) :
    parseStrF (f + 1) (92 :: 117 :: r2) =
      (match parseHex4 r2 with
       | none => none
       | some (h, r3) =>
         if 55296 ≤ h ∧ h ≤ 56319 then
           if headIs r3 92 && headIs r3.tail 117 then
             match parseHex4 r3.tail.tail with
             | some (l, r4) =>
               if 56320 ≤ l ∧ l ≤ 57343 then
                 (parseStrF f r4).map
                   (fun p => ((65536 + (h - 55296) * 1024 + (l - 56320)) :: p.1, p.2))
               else (parseStrF f r3).map (fun p => (h :: p.1, p.2))
             | none => (parseStrF f r3).map (fun p => (h :: p.1, p.2))
           else (parseStrF f r3).map (fun p => (h :: p.1, p.2))
         else (parseStrF f r3).map (fun p => (h :: p.1, p.2))) := rfl

/-- The scanner on a `\u` escape whose four hex digits are `hex4 c`. -/
theorem parseStrF_u2 (f c : Nat) (hc : c < 65536) (w : List Nat) :
    parseStrF (f + 1) (92 :: 117 :: (hex4 c ++ w)) =
      (if 55296 ≤ c ∧ c ≤ 56319 then
         if headIs w 92 && headIs w.tail 117 then
           match parseHex4 w.tail.tail with
           | some (l, r4) =>
             if 56320 ≤ l ∧ l ≤ 57343 then
               (parseStrF f r4).map
                 (fun p => ((65536 + (c - 55296) * 1024 + (l - 56320)) :: p.1, p.2))
             else (parseStrF f w).map (fun p => (c :: p.1, p.2))
           | none => (parseStrF f w).map (fun p => (c :: p.1, p.2))
         else (parseStrF f w).map (fun p => (c :: p.1, p.2))
       else (parseStrF f w).map (fun p => (c :: p.1, p.2))) := by
  rw [parseStrF_u, parseHex4_hex4 c hc w]

/-- The scanner on a raw (unescaped, printable) character. -/
theorem parseStrF_raw (f c : Nat) (r : List Nat) (h34 : c ≠ 34) (h92 : c ≠ 92)
    (hge : ¬ c < 32) :
    parseStrF (f + 1) (c :: r) = (parseStrF f r).map (fun p => (c :: p.1, p.2)) := by
  simp only [parseStrF]
  rw [if_neg h34, if_neg h92, if_neg hge]

set_option maxHeartbeats 2000000 in
/-- Re-parsing an `ensure_ascii`-encoded string body: the scanner returns
exactly the original code points and the rest after the closing quote. -/
theorem parseStrF_enc (s : List Nat) : ∀ (f : Nat) (rest : List Nat),
    (∀ c ∈ s, c < 1114112) → noAdjSurr s = true →
    (encStr s ++ 34 :: rest).length < f →
    parseStrF f (encStr s ++ 34 :: rest) = some (s, rest) := by
  induction s with
  | nil =>
    intro f rest _ _ hf
    cases f with
    | zero => simp at hf
    | succ f' => rfl
  | cons c s' ih =>
    intro f rest hlt hadj hf
    cases f with
    | zero => simp at hf
    | succ f' =>
      have hc := hlt c (List.mem_cons_self c s')
      have hlt' : ∀ x ∈ s', x < 1114112 := fun x hx => hlt x (List.mem_cons_of_mem c hx)
      have hadj' := noAdjSurr_tail hadj
      have hih : (encStr s' ++ 34 :: rest).length < f' := by
        have hlen : 1 ≤ (encChar c).length := by
          unfold encChar
          split_ifs <;> simp
        have hsplit : encStr (c :: s') = encChar c ++ encStr s' := rfl
        rw [hsplit, List.append_assoc] at hf
        rw [List.length_append] at hf
        omega
      have hihres := ih f' rest hlt' hadj' hih
      rw [show encStr (c :: s') = encChar c ++ encStr s' from rfl, List.append_assoc]
      by_cases h34 : c = 34
      · subst h34
        rw [show encChar 34 = [92, 34] from rfl]
        rw [show parseStrF (f' + 1) ([92, 34] ++ (encStr s' ++ 34 :: rest)) =
          (parseStrF f' (encStr s' ++ 34 :: rest)).map (fun p => (34 :: p.1, p.2)) from rfl]
        rw [hihres]
        rfl
      by_cases h92 : c = 92
      · subst h92
        rw [show encChar 92 = [92, 92] from rfl]
        rw [show parseStrF (f' + 1) ([92, 92] ++ (encStr s' ++ 34 :: rest)) =
          (parseStrF f' (encStr s' ++ 34 :: rest)).map (fun p => (92 :: p.1, p.2)) from rfl]
        rw [hihres]
        rfl
      by_cases h8 : c = 8
      · subst h8
        rw [show encChar 8 = [92, 98] from rfl]
        rw [show parseStrF (f' + 1) ([92, 98] ++ (encStr s' ++ 34 :: rest)) =
          (parseStrF f' (encStr s' ++ 34 :: rest)).map (fun p => (8 :: p.1, p.2)) from rfl]
        rw [hihres]
        rfl
      by_cases h9 : c = 9
      · subst h9
        rw [show encChar 9 = [92, 116] from rfl]
        rw [show parseStrF (f' + 1) ([92, 116] ++ (encStr s' ++ 34 :: rest)) =
          (parseStrF f' (encStr s' ++ 34 :: rest)).map (fun p => (9 :: p.1, p.2)) from rfl]
        rw [hihres]
        rfl
      by_cases h10 : c = 10
      · subst h10
        rw [show encChar 10 = [92, 110] from rfl]
        rw [show parseStrF (f' + 1) ([92, 110] ++ (encStr s' ++ 34 :: rest)) =
          (parseStrF f' (encStr s' ++ 34 :: rest)).map (fun p => (10 :: p.1, p.2)) from rfl]
        rw [hihres]
        rfl
      by_cases h12 : c = 12
      · subst h12
        rw [show encChar 12 = [92, 102] from rfl]
        rw [show parseStrF (f' + 1) ([92, 102] ++ (encStr s' ++ 34 :: rest)) =
          (parseStrF f' (encStr s' ++ 34 :: rest)).map (fun p => (12 :: p.1, p.2)) from rfl]
        rw [hihres]
        rfl
      by_cases h13 : c = 13
      · subst h13
        rw [show encChar 13 = [92, 114] from rfl]
        rw [show parseStrF (f' + 1) ([92, 114] ++ (encStr s' ++ 34 :: rest)) =
          (parseStrF f' (encStr s' ++ 34 :: rest)).map (fun p => (13 :: p.1, p.2)) from rfl]
        rw [hihres]
        rfl
      by_cases hlt32 : c < 32
      · have henc : encChar c = 92 :: 117 :: hex4 c := by
          unfold encChar
          rw [if_neg h34, if_neg h92, if_neg h8, if_neg h9, if_neg h10, if_neg h12,
            if_neg h13, if_pos hlt32]
          rfl
        rw [henc]
        rw [show (92 :: 117 :: hex4 c) ++ (encStr s' ++ 34 :: rest) =
          92 :: 117 :: (hex4 c ++ (encStr s' ++ 34 :: rest)) from by simp]
        rw [parseStrF_u2 f' c (by omega) (encStr s' ++ 34 :: rest)]
        rw [if_neg (by omega : ¬(55296 ≤ c ∧ c ≤ 56319))]
        rw [hihres]
        rfl
      by_cases hlt127 : c < 127
      · have henc : encChar c = [c] := by
          unfold encChar
          rw [if_neg h34, if_neg h92, if_neg h8, if_neg h9, if_neg h10, if_neg h12,
            if_neg h13, if_neg hlt32, if_pos hlt127]
        rw [henc]
        rw [show ([c] : List Nat) ++ (encStr s' ++ 34 :: rest) =
          c :: (encStr s' ++ 34 :: rest) from rfl]
        rw [parseStrF_raw f' c _ h34 h92 hlt32]
        rw [hihres]
        rfl
      by_cases hlt65536 : c < 65536
      · have henc : encChar c = 92 :: 117 :: hex4 c := by
          unfold encChar
          rw [if_neg h34, if_neg h92, if_neg h8, if_neg h9, if_neg h10, if_neg h12,
            if_neg h13, if_neg hlt32, if_neg hlt127, if_pos hlt65536]
          rfl
        rw [henc]
        rw [show (92 :: 117 :: hex4 c) ++ (encStr s' ++ 34 :: rest) =
          92 :: 117 :: (hex4 c ++ (encStr s' ++ 34 :: rest)) from by simp]
        rw [parseStrF_u2 f' c hlt65536 (encStr s' ++ 34 :: rest)]
        by_cases hhi : 55296 ≤ c ∧ c ≤ 56319
        · rw [if_pos hhi]
          cases s' with
          | nil =>
            have hcond : (headIs ((encStr [] : List Nat) ++ 34 :: rest) 92 &&
                headIs ((encStr [] : List Nat) ++ 34 :: rest).tail 117) = false := rfl
            rw [hcond]
            rw [if_neg (by simp : ¬(false = true))]
            rw [hihres]
            rfl
          | cons d s2 =>
            have hd := hlt' d (List.mem_cons_self d s2)
            have hR : encStr (d :: s2) ++ 34 :: rest =
                encChar d ++ (encStr s2 ++ 34 :: rest) := by
              rw [show encStr (d :: s2) = encChar d ++ encStr s2 from rfl,
                List.append_assoc]
            rcases encChar_shape d hd with ⟨x, hsh, hx⟩ | ⟨hsh, hdne⟩ |
              ⟨v, t0, hsh, hv, himp⟩
            · have hcond : (headIs (encStr (d :: s2) ++ 34 :: rest) 92 &&
                  headIs (encStr (d :: s2) ++ 34 :: rest).tail 117) = false := by
                rw [hR, hsh]
                simp [headIs, hx]
              rw [hcond]
              rw [if_neg (by simp : ¬(false = true))]
              rw [hihres]
              rfl
            · have hcond : (headIs (encStr (d :: s2) ++ 34 :: rest) 92 &&
                  headIs (encStr (d :: s2) ++ 34 :: rest).tail 117) = false := by
                rw [hR, hsh]
                simp [headIs, hdne]
              rw [hcond]
              rw [if_neg (by simp : ¬(false = true))]
              rw [hihres]
              rfl
            · have hR2 : encStr (d :: s2) ++ 34 :: rest =
                  92 :: 117 :: (hex4 v ++ (t0 ++ (encStr s2 ++ 34 :: rest))) := by
                rw [hR, hsh]
                simp
              have hcond : (headIs (encStr (d :: s2) ++ 34 :: rest) 92 &&
                  headIs (encStr (d :: s2) ++ 34 :: rest).tail 117) = true := by
                rw [hR2]
                rfl
              rw [hcond]
              rw [if_pos rfl]
              have htt : (encStr (d :: s2) ++ 34 :: rest).tail.tail =
                  hex4 v ++ (t0 ++ (encStr s2 ++ 34 :: rest)) := by
                rw [hR2]
                rfl
              rw [htt, parseHex4_hex4 v hv]
              have hnotlow : ¬(56320 ≤ v ∧ v ≤ 57343) := by
                intro hlo
                have hdlo := himp hlo
                exact noAdjSurr_head hadj ⟨hhi.1, hhi.2, by omega, by omega⟩
              simp only []
              rw [if_neg hnotlow]
              rw [hihres]
              rfl
        · rw [if_neg hhi]
          rw [hihres]
          rfl
      · have henc : encChar c = 92 :: 117 :: (hex4 (55296 + (c - 65536) / 1024) ++
            (92 :: 117 :: hex4 (56320 + (c - 65536) % 1024))) := by
          unfold encChar
          rw [if_neg h34, if_neg h92, if_neg h8, if_neg h9, if_neg h10, if_neg h12,
            if_neg h13, if_neg hlt32, if_neg hlt127, if_neg hlt65536]
          simp
        have hq : (c - 65536) / 1024 < 1024 := by
          have h1 : c - 65536 < 1048576 := by omega
          omega
        rw [henc]
        rw [show (92 :: 117 :: (hex4 (55296 + (c - 65536) / 1024) ++
            (92 :: 117 :: hex4 (56320 + (c - 65536) % 1024)))) ++
            (encStr s' ++ 34 :: rest) =
          92 :: 117 :: (hex4 (55296 + (c - 65536) / 1024) ++
            (92 :: 117 :: (hex4 (56320 + (c - 65536) % 1024) ++
              (encStr s' ++ 34 :: rest)))) from by simp]
        rw [parseStrF_u2 f' (55296 + (c - 65536) / 1024) (by omega)
          (92 :: 117 :: (hex4 (56320 + (c - 65536) % 1024) ++ (encStr s' ++ 34 :: rest)))]
        rw [if_pos (by omega : 55296 ≤ 55296 + (c - 65536) / 1024 ∧
          55296 + (c - 65536) / 1024 ≤ 56319)]
        rw [show (headIs (92 :: 117 :: (hex4 (56320 + (c - 65536) % 1024) ++
            (encStr s' ++ 34 :: rest))) 92 &&
          headIs (92 :: 117 :: (hex4 (56320 + (c - 65536) % 1024) ++
            (encStr s' ++ 34 :: rest))).tail 117) = true from rfl]
        rw [if_pos rfl]
        rw [show (92 :: 117 :: (hex4 (56320 + (c - 65536) % 1024) ++
            (encStr s' ++ 34 :: rest))).tail.tail =
          hex4 (56320 + (c - 65536) % 1024) ++ (encStr s' ++ 34 :: rest) from rfl]
        rw [parseHex4_hex4 (56320 + (c - 65536) % 1024)
          (by have := Nat.mod_lt (c - 65536) (show 0 < 1024 by norm_num); omega)]
        simp only []
        rw [if_pos (by
          have := Nat.mod_lt (c - 65536) (show 0 < 1024 by norm_num)
          omega)]
        rw [hihres]
        have harith : 65536 + ((55296 + (c - 65536) / 1024) - 55296) * 1024 +
            ((56320 + (c - 65536) % 1024) - 56320) = c := by
          have h1 : (55296 + (c - 65536) / 1024) - 55296 = (c - 65536) / 1024 := by omega
          have h2 : (56320 + (c - 65536) % 1024) - 56320 = (c - 65536) % 1024 := by omega
          rw [h1, h2]
          omega
        rw [harith]
        rfl

end StringRoundTrip

section ValueRoundTrip

theorem valueStart_not_close {c : Nat} (h : valueStart c = true) :
    c ≠ 93 ∧ c ≠ 125 := by
  unfold valueStart at h
  simp only [Bool.or_eq_true, beq_iff_eq] at h
  unfold isDigit at h
  constructor <;> intro hc <;> subst hc <;>
    rcases h with ((((((((h | h) | h) | h) | h) | h) | h) | h) | h) | h <;>
    first
      | omega
      | (simp only [Bool.and_eq_true, decide_eq_true_eq] at h; omega)

theorem floatChars_head (m e : Int) :
    ∃ c t, floatChars m e = c :: t ∧
      (isDigit c = true ∨ (c = 45 ∧ ∃ d t2, t = d :: t2 ∧ isDigit d = true)) := by
  have hds := natDigitChars_ne_nil m.natAbs
  have hdig := natDigitChars_digit m.natAbs
  set k := (-e).toNat with hk
  show ∃ c t,
    ((if m < 0 then [45] else []) ++
      (List.replicate (k + 1 - (natDigitChars m.natAbs).length) 48 ++
        natDigitChars m.natAbs).take ((List.replicate (k + 1 -
          (natDigitChars m.natAbs).length) 48 ++ natDigitChars m.natAbs).length - k) ++
      [46] ++
      (if k = 0 then [48] else (List.replicate (k + 1 -
        (natDigitChars m.natAbs).length) 48 ++ natDigitChars m.natAbs).drop
          ((List.replicate (k + 1 - (natDigitChars m.natAbs).length) 48 ++
            natDigitChars m.natAbs).length - k))) = c :: t ∧
      (isDigit c = true ∨ (c = 45 ∧ ∃ d t2, t = d :: t2 ∧ isDigit d = true))
  set D := List.replicate (k + 1 - (natDigitChars m.natAbs).length) 48 ++
    natDigitChars m.natAbs with hD
  have hlen1 : 1 ≤ (natDigitChars m.natAbs).length := List.length_pos.mpr hds
  have hDlen : D.length = (k + 1 - (natDigitChars m.natAbs).length) +
      (natDigitChars m.natAbs).length := by
    rw [hD, List.length_append, List.length_replicate]
  have hge : 1 ≤ D.length - k := by omega
  obtain ⟨p, dsp, hdsp, hpd⟩ : ∃ p dsp, D = p :: dsp ∧ isDigit p = true := by
    rw [hD]
    cases hj : k + 1 - (natDigitChars m.natAbs).length with
    | zero =>
      cases hh : natDigitChars m.natAbs with
      | nil => exact absurd hh hds
      | cons d0 ds0 =>
        exact ⟨d0, ds0, rfl, hdig d0 (by rw [hh]; exact List.mem_cons_self _ _)⟩
    | succ j' =>
      exact ⟨48, List.replicate j' 48 ++ natDigitChars m.natAbs,
        by rw [List.replicate_succ, List.cons_append], rfl⟩
  have htake : ∃ u, D.take (D.length - k) = p :: u := by
    refine ⟨dsp.take (D.length - k - 1), ?_⟩
    have hn0 : D.length - k = (D.length - k - 1) + 1 := by omega
    rw [hn0, hdsp, List.take_succ_cons]
    norm_num
  obtain ⟨u, hu⟩ := htake
  by_cases hm : m < 0
  · rw [if_pos hm, hu]
    exact ⟨45, _, rfl, Or.inr ⟨rfl, p, _, rfl, hpd⟩⟩
  · rw [if_neg hm, hu]
    exact ⟨p, _, rfl, Or.inl hpd⟩

theorem dumpVal_head (v : PyVal) (lvl : Nat) :
    ∃ c t, dumpVal v lvl = c :: t ∧ valueStart c = true := by
  cases v with
  | PNone => exact ⟨110, _, rfl, rfl⟩
  | PBool b => cases b with
    | true => exact ⟨116, _, rfl, rfl⟩
    | false => exact ⟨102, _, rfl, rfl⟩
  | PInt n =>
    show ∃ c t, intDigitChars n = c :: t ∧ valueStart c = true
    unfold intDigitChars
    by_cases hn : n < 0
    · rw [if_pos hn]
      exact ⟨45, _, rfl, rfl⟩
    · rw [if_neg hn]
      rcases natDigitChars_shape n.natAbs with ⟨_, heq⟩ | ⟨c, t, heq, hd, _, _⟩
      · exact ⟨48, _, heq, rfl⟩
      · refine ⟨c, t, heq, ?_⟩
        unfold valueStart
        rw [hd]
        simp
  | PFloat m e =>
    obtain ⟨c, t, heq, hc⟩ := floatChars_head m e
    refine ⟨c, t, heq, ?_⟩
    unfold valueStart
    rcases hc with hd | ⟨rfl, -⟩
    · rw [hd]
      simp
    · rfl
  | PNan => exact ⟨78, _, rfl, rfl⟩
  | PInf => exact ⟨73, _, rfl, rfl⟩
  | PNegInf => exact ⟨45, _, rfl, rfl⟩
  | PStr s => exact ⟨34, _, rfl, rfl⟩
  | PList xs => cases xs with
    | nil => exact ⟨91, _, rfl, rfl⟩
    | cons v t => exact ⟨91, _, rfl, rfl⟩
  | PDict kvs => cases kvs with
    | nil => exact ⟨123, _, rfl, rfl⟩
    | cons k v t => exact ⟨123, _, rfl, rfl⟩

theorem skipWs_dumpVal (v : PyVal) (lvl : Nat) (r : List Nat) :
    skipWs (dumpVal v lvl ++ r) = dumpVal v lvl ++ r := by
  obtain ⟨c, t, heq, hvs⟩ := dumpVal_head v lvl
  rw [heq, List.cons_append, skipWs_valueStart hvs]

theorem headIs_dumpVal_close (v : PyVal) (lvl : Nat) (r : List Nat) :
    headIs (dumpVal v lvl ++ r) 93 = false ∧ headIs (dumpVal v lvl ++ r) 125 = false := by
  obtain ⟨c, t, heq, hvs⟩ := dumpVal_head v lvl
  obtain ⟨h93, h125⟩ := valueStart_not_close hvs
  rw [heq, List.cons_append]
  constructor <;> simp [headIs, h93, h125]

theorem GoodTail_itemsSuffix (L lvlc : Nat) (rest : List Nat) (t : PyList) :
    GoodTail (itemsSuffix L lvlc rest t) := by
  cases t with
  | nil => exact Or.inr ⟨10, _, rfl, Or.inr rfl⟩
  | cons w t2 => exact Or.inr ⟨44, _, rfl, Or.inl rfl⟩

theorem GoodTail_entriesSuffix (L lvlc : Nat) (rest : List Nat) (t : PyKVs) :
    GoodTail (entriesSuffix L lvlc rest t) := by
  cases t with
  | nil => exact Or.inr ⟨10, _, rfl, Or.inr rfl⟩
  | cons k w t2 => exact Or.inr ⟨44, _, rfl, Or.inl rfl⟩

theorem dumpItems_decomp : ∀ (t : PyList) (v : PyVal) (L lvlc : Nat) (rest : List Nat),
    dumpItems (PyList.cons v t) L ++ 10 :: (indSp lvlc ++ 93 :: rest) =
      indSp L ++ (dumpVal v L ++ itemsSuffix L lvlc rest t)
  | .nil, v, L, lvlc, rest => by
    show (indSp L ++ dumpVal v L) ++ 10 :: (indSp lvlc ++ 93 :: rest) = _
    simp [itemsSuffix]
  | .cons w t2, v, L, lvlc, rest => by
    show (indSp L ++ dumpVal v L ++ [44, 10] ++ dumpItems (PyList.cons w t2) L) ++
        10 :: (indSp lvlc ++ 93 :: rest) = _
    rw [List.append_assoc, List.append_assoc, List.append_assoc]
    rw [show ([44, 10] : List Nat) ++ (dumpItems (PyList.cons w t2) L ++
        10 :: (indSp lvlc ++ 93 :: rest)) =
      44 :: 10 :: (dumpItems (PyList.cons w t2) L ++ 10 :: (indSp lvlc ++ 93 :: rest))
      from rfl]
    rw [dumpItems_decomp t2 w L lvlc rest]
    simp [itemsSuffix]

theorem dumpEntries_decomp : ∀ (t : PyKVs) (k : List Nat) (v : PyVal) (L lvlc : Nat)
    (rest : List Nat),
    dumpEntries (PyKVs.cons k v t) L ++ 10 :: (indSp lvlc ++ 125 :: rest) =
      indSp L ++ (34 :: (encStr k ++ 34 :: 58 :: 32 ::
        (dumpVal v L ++ entriesSuffix L lvlc rest t)))
  | .nil, k, v, L, lvlc, rest => by
    show (indSp L ++ [34] ++ encStr k ++ [34, 58, 32] ++ dumpVal v L) ++
        10 :: (indSp lvlc ++ 125 :: rest) = _
    simp [entriesSuffix]
  | .cons k2 v2 t2, k, v, L, lvlc, rest => by
    show (indSp L ++ [34] ++ encStr k ++ [34, 58, 32] ++ dumpVal v L ++ [44, 10] ++
        dumpEntries (PyKVs.cons k2 v2 t2) L) ++ 10 :: (indSp lvlc ++ 125 :: rest) = _
    rw [List.append_assoc, List.append_assoc, List.append_assoc, List.append_assoc,
      List.append_assoc]
    rw [show ([44, 10] : List Nat) ++ (dumpEntries (PyKVs.cons k2 v2 t2) L ++
        10 :: (indSp lvlc ++ 125 :: rest)) =
      44 :: 10 :: (dumpEntries (PyKVs.cons k2 v2 t2) L ++ 10 :: (indSp lvlc ++ 125 :: rest))
      from rfl]
    rw [dumpEntries_decomp t2 k2 v2 L lvlc rest]
    simp [entriesSuffix]

theorem pv_digit (f : Nat) {c : Nat} (h : isDigit c = true) (r : List Nat) :
    pv (f + 1) (c :: r) = parseNumber (c :: r) := by
  unfold isDigit at h
  simp only [Bool.and_eq_true, decide_eq_true_eq] at h
  obtain ⟨h1, h2⟩ := h
  interval_cases c <;> rfl

theorem pv_neg (f : Nat) {d : Nat} (h : isDigit d = true) (r : List Nat) :
    pv (f + 1) (45 :: d :: r) = parseNumber (45 :: d :: r) := by
  unfold isDigit at h
  simp only [Bool.and_eq_true, decide_eq_true_eq] at h
  obtain ⟨h1, h2⟩ := h
  interval_cases d <;> rfl

theorem needV_pos (v : PyVal) : 1 ≤ needV v := by
  cases v
  case PList xs => cases xs <;> simp [needV]
  case PDict kvs => cases kvs <;> simp [needV]
  all_goals simp [needV]

theorem needL_pos (t : PyList) : 1 ≤ needL t := by
  cases t <;> simp [needL] <;> omega

theorem needKVs_pos (t : PyKVs) : 1 ≤ needKVs t := by
  cases t <;> simp [needKVs] <;> omega

theorem kvAppend_nil : ∀ x : PyKVs, kvAppend x .nil = x
  | .nil => rfl
  | .cons k v t => by
    show PyKVs.cons k v (kvAppend t .nil) = PyKVs.cons k v t
    rw [kvAppend_nil t]

theorem keyMem_kvAppend : ∀ (a : PyKVs) (b : PyKVs) (k : List Nat),
    keyMem k (kvAppend a b) = (keyMem k a || keyMem k b)
  | .nil, b, k => by simp [kvAppend, keyMem]
  | .cons k0 v0 t, b, k => by
    show ((k == k0) || keyMem k (kvAppend t b)) = (((k == k0) || keyMem k t) || keyMem k b)
    rw [keyMem_kvAppend t b k, Bool.or_assoc]

theorem pyDictSet_notMem : ∀ (a : PyKVs) (k : List Nat) (v : PyVal),
    keyMem k a = false → pyDictSet a k v = kvAppend a (.cons k v .nil)
  | .nil, k, v, _ => rfl
  | .cons k0 v0 t, k, v, h => by
    have h2 : (k == k0) = false ∧ keyMem k t = false := by
      have := h
      simp only [keyMem, Bool.or_eq_false_iff] at this
      exact this
    show (if k0 = k then PyKVs.cons k0 v t else PyKVs.cons k0 v0 (pyDictSet t k v)) =
      PyKVs.cons k0 v0 (kvAppend t (.cons k v .nil))
    rw [if_neg (by
      intro he
      rw [beq_eq_false_iff_ne] at h2
      exact h2.1 he.symm)]
    rw [pyDictSet_notMem t k v h2.2]

theorem kvAppend_assoc : ∀ (a b c : PyKVs),
    kvAppend (kvAppend a b) c = kvAppend a (kvAppend b c)
  | .nil, _, _ => rfl
  | .cons k v t, b, c => by
    show PyKVs.cons k v (kvAppend (kvAppend t b) c) = PyKVs.cons k v (kvAppend t (kvAppend b c))
    rw [kvAppend_assoc t b c]

theorem objBuild_disjoint : ∀ (pairs acc : PyKVs), wfKVs pairs = true →
    (∀ k', keyMem k' pairs = true → keyMem k' acc = false) →
    objBuild acc pairs = kvAppend acc pairs
  | .nil, acc, _, _ => (kvAppend_nil acc).symm
  | .cons k v t, acc, hwf, hdisj => by
    have hparts : wfStr k = true ∧ keyMem k t = false ∧ wfV v = true ∧ wfKVs t = true := by
      have := hwf
      simp only [wfKVs, Bool.and_eq_true, Bool.not_eq_true'] at this
      exact ⟨this.1.1.1, this.1.1.2, this.1.2, this.2⟩
    have hkacc : keyMem k acc = false := hdisj k (by simp [keyMem])
    show objBuild (pyDictSet acc k v) t = kvAppend acc (.cons k v t)
    rw [pyDictSet_notMem acc k v hkacc]
    rw [objBuild_disjoint t (kvAppend acc (.cons k v .nil)) hparts.2.2.2 (by
      intro k' hk't
      rw [keyMem_kvAppend]
      have h1 : keyMem k' acc = false := hdisj k' (by simp [keyMem, hk't])
      have h2 : (k' == k) = false := by
        rw [beq_eq_false_iff_ne]
        intro he
        subst he
        rw [hk't] at hparts
        exact absurd hparts.2.1 (by simp)
      simp [keyMem, h1, h2])]
    rw [kvAppend_assoc]
    rfl

theorem objFromPairs_wf (pairs : PyKVs) (h : wfKVs pairs = true) :
    objFromPairs pairs = pairs := by
  unfold objFromPairs
  rw [objBuild_disjoint pairs .nil h (fun k' _ => rfl)]
  rfl

/-- `pv` on an array opening bracket. -/
theorem pv_arr (f : Nat) (r : List Nat) :
    pv (f + 1) (91 :: r) =
      (if headIs (skipWs r) 93 then some (.PList .nil, (skipWs r).tail)
       else (itemsLoop (pv f) f (skipWs r)).map (fun p => (.PList p.1, p.2))) := rfl

/-- `pv` on an object opening brace. -/
theorem pv_obj (f : Nat) (r : List Nat) :
    pv (f + 1) (123 :: r) =
      (if headIs (skipWs r) 125 then some (.PDict .nil, (skipWs r).tail)
       else (kvLoop (pv f) f (skipWs r)).map
         (fun p => (.PDict (objFromPairs p.1), p.2))) := rfl

theorem itemsLoop_rt (g : Nat)
    (hp : ∀ v lvl rest, wfV v = true → GoodTail rest → needV v < g →
      pv g (dumpVal v lvl ++ rest) = some (v, rest)) :
    ∀ (t : PyList) (f : Nat) (v : PyVal) (L lvlc : Nat) (rest : List Nat),
      wfV v = true → wfL t = true → GoodTail rest →
      needV v + needL t ≤ f → needV v + needL t ≤ g →
      itemsLoop (pv g) f (dumpVal v L ++ itemsSuffix L lvlc rest t) =
        some (PyList.cons v t, rest)
  | .nil, f, v, L, lvlc, rest, hwv, _, hgt, hf, hg => by
    obtain ⟨f', rfl⟩ : ∃ f', f = f' + 1 :=
      ⟨f - 1, by have := needV_pos v; have := needL_pos PyList.nil; omega⟩
    have hps : pv g (dumpVal v L ++ itemsSuffix L lvlc rest .nil) =
        some (v, itemsSuffix L lvlc rest .nil) :=
      hp v L _ hwv (GoodTail_itemsSuffix L lvlc rest .nil)
        (by have := needL_pos PyList.nil; simp only [needL] at hg; omega)
    simp only [itemsLoop]
    rw [hps]
    simp only []
    rw [show itemsSuffix L lvlc rest .nil = 10 :: (indSp lvlc ++ 93 :: rest) from rfl]
    rw [skipWs_nl, skipWs_indSp, skipWs_not_ws (c := 93) rfl rest]
  | .cons w t2, f, v, L, lvlc, rest, hwv, hwt, hgt, hf, hg => by
    obtain ⟨f', rfl⟩ : ∃ f', f = f' + 1 :=
      ⟨f - 1, by have := needV_pos v; have := needL_pos (PyList.cons w t2); omega⟩
    have hwparts : wfV w = true ∧ wfL t2 = true := by
      have := hwt
      simp only [wfL, Bool.and_eq_true] at this
      exact this
    have hneed : needL (PyList.cons w t2) = 1 + needV w + needL t2 := rfl
    have hps : pv g (dumpVal v L ++ itemsSuffix L lvlc rest (.cons w t2)) =
        some (v, itemsSuffix L lvlc rest (.cons w t2)) :=
      hp v L _ hwv (GoodTail_itemsSuffix L lvlc rest (.cons w t2))
        (by rw [hneed] at hg; have := needV_pos w; have := needL_pos t2; omega)
    simp only [itemsLoop]
    rw [hps]
    simp only []
    rw [show itemsSuffix L lvlc rest (.cons w t2) =
      44 :: 10 :: ((indSp L ++ dumpVal w L) ++ itemsSuffix L lvlc rest t2) from rfl]
    rw [skipWs_not_ws (c := 44) rfl]
    simp only []
    rw [skipWs_nl, List.append_assoc, skipWs_indSp, skipWs_dumpVal]
    rw [itemsLoop_rt g hp t2 f' w L lvlc rest hwparts.1 hwparts.2 hgt
      (by rw [hneed] at hf; have := needV_pos v; omega)
      (by rw [hneed] at hg; have := needV_pos v; omega)]
    rfl

theorem kvLoop_rt (g : Nat)
    (hp : ∀ v lvl rest, wfV v = true → GoodTail rest → needV v < g →
      pv g (dumpVal v lvl ++ rest) = some (v, rest)) :
    ∀ (t : PyKVs) (f : Nat) (k : List Nat) (v : PyVal) (L lvlc : Nat) (rest : List Nat),
      wfStr k = true → wfV v = true → wfKVs t = true → GoodTail rest →
      needV v + needKVs t ≤ f → needV v + needKVs t ≤ g →
      kvLoop (pv g) f
        (34 :: (encStr k ++ 34 :: 58 :: 32 :: (dumpVal v L ++ entriesSuffix L lvlc rest t))) =
        some (PyKVs.cons k v t, rest)
  | t, f, k, v, L, lvlc, rest, hwk, hwv, hwt, hgt, hf, hg => by
    obtain ⟨f', rfl⟩ : ∃ f', f = f' + 1 :=
      ⟨f - 1, by have := needV_pos v; have := needKVs_pos t; omega⟩
    have hkparts : (∀ c ∈ k, c < 1114112) ∧ noAdjSurr k = true := by
      have := hwk
      simp only [wfStr, Bool.and_eq_true, List.all_eq_true, decide_eq_true_eq] at this
      exact this
    simp only [kvLoop]
    rw [parseStrF_enc k _ _ hkparts.1 hkparts.2 (Nat.lt_succ_self _)]
    simp only []
    rw [skipWs_not_ws (c := 58) rfl]
    simp only []
    rw [show (32 :: (dumpVal v L ++ entriesSuffix L lvlc rest t)) =
      indSp 1 ++ (dumpVal v L ++ entriesSuffix L lvlc rest t) from rfl]
    rw [skipWs_indSp, skipWs_dumpVal]
    rw [hp v L _ hwv (GoodTail_entriesSuffix L lvlc rest t)
      (by have := needKVs_pos t; omega)]
    simp only []
    cases t with
    | nil =>
      rw [show entriesSuffix L lvlc rest .nil = 10 :: (indSp lvlc ++ 125 :: rest) from rfl]
      rw [skipWs_nl, skipWs_indSp, skipWs_not_ws (c := 125) rfl rest]
    | cons k2 v2 t2 =>
      have hw2 : wfStr k2 = true ∧ keyMem k2 t2 = false ∧ wfV v2 = true ∧
          wfKVs t2 = true := by
        have := hwt
        simp only [wfKVs, Bool.and_eq_true, Bool.not_eq_true'] at this
        exact ⟨this.1.1.1, this.1.1.2, this.1.2, this.2⟩
      have hneed : needKVs (PyKVs.cons k2 v2 t2) = 1 + needV v2 + needKVs t2 := rfl
      rw [show entriesSuffix L lvlc rest (.cons k2 v2 t2) =
        44 :: 10 :: (indSp L ++ 34 :: (encStr k2 ++ 34 :: 58 :: 32 ::
          (dumpVal v2 L ++ entriesSuffix L lvlc rest t2))) from rfl]
      rw [skipWs_not_ws (c := 44) rfl]
      simp only []
      rw [skipWs_nl, skipWs_indSp, skipWs_not_ws (c := 34) rfl]
      rw [kvLoop_rt g hp t2 f' k2 v2 L lvlc rest hw2.1 hw2.2.2.1 hw2.2.2.2 hgt
        (by rw [hneed] at hf; have := needV_pos v; omega)
        (by rw [hneed] at hg; have := needV_pos v; omega)]
      rfl

set_option maxHeartbeats 1000000 in
/-- Re-parsing a dumped value: `pv` recovers exactly the value, for any
fuel above `needV` and any tail that cannot extend the value. -/
theorem pv_rt : ∀ (f : Nat) (v : PyVal) (lvl : Nat) (rest : List Nat),
    wfV v = true → GoodTail rest → needV v < f →
    pv f (dumpVal v lvl ++ rest) = some (v, rest) := by
  intro f
  induction f with
  | zero => intro v lvl rest _ _ h; omega
  | succ f' ih =>
    intro v lvl rest hwf hgt hneed
    cases v with
    | PNone => rfl
    | PBool b => cases b <;> rfl
    | PNan => rfl
    | PInf => rfl
    | PNegInf => rfl
    | PInt n =>
      have hred : pv (f' + 1) (intDigitChars n ++ rest) =
          parseNumber (intDigitChars n ++ rest) := by
        obtain ⟨c, t, heq, hdg⟩ : ∃ c t, natDigitChars n.natAbs = c :: t ∧
            isDigit c = true := by
          rcases natDigitChars_shape n.natAbs with ⟨_, heq⟩ | ⟨c, t, heq, hd, _, _⟩
          · exact ⟨48, [], heq, rfl⟩
          · exact ⟨c, t, heq, hd⟩
        unfold intDigitChars
        by_cases hn : n < 0
        · rw [if_pos hn, heq]
          exact pv_neg f' hdg (t ++ rest)
        · rw [if_neg hn, heq]
          exact pv_digit f' hdg (t ++ rest)
      show pv (f' + 1) (intDigitChars n ++ rest) = _
      rw [hred, parseNumber_int n rest hgt]
    | PFloat m e =>
      have hwff : wfFloat m e = true := hwf
      have hred : pv (f' + 1) (floatChars m e ++ rest) =
          parseNumber (floatChars m e ++ rest) := by
        obtain ⟨c, t, heq, hc⟩ := floatChars_head m e
        rw [heq]
        rcases hc with hdg | ⟨rfl, d, t2, ht, hd⟩
        · exact pv_digit f' hdg (t ++ rest)
        · rw [ht]
          exact pv_neg f' hd (t2 ++ rest)
      show pv (f' + 1) (floatChars m e ++ rest) = _
      rw [hred, parseNumber_floatChars m e rest hwff hgt]
    | PStr s =>
      have hsparts : (∀ c ∈ s, c < 1114112) ∧ noAdjSurr s = true := by
        have : wfStr s = true := hwf
        simp only [wfStr, Bool.and_eq_true, List.all_eq_true, decide_eq_true_eq] at this
        exact this
      show pv (f' + 1) (([34] ++ encStr s ++ [34]) ++ rest) = _
      rw [show ([34] ++ encStr s ++ [34]) ++ rest = 34 :: (encStr s ++ 34 :: rest) by simp]
      rw [show pv (f' + 1) (34 :: (encStr s ++ 34 :: rest)) =
        (parseStrF ((encStr s ++ 34 :: rest).length + 1) (encStr s ++ 34 :: rest)).map
          (fun p => (PyVal.PStr p.1, p.2)) from rfl]
      rw [parseStrF_enc s _ rest hsparts.1 hsparts.2 (Nat.lt_succ_self _)]
      rfl
    | PList xs =>
      cases xs with
      | nil => rfl
      | cons w t =>
        have hwparts : wfV w = true ∧ wfL t = true := by
          have : wfL (PyList.cons w t) = true := hwf
          simp only [wfL, Bool.and_eq_true] at this
          exact this
        have hneedL : needV (PyVal.PList (PyList.cons w t)) =
            1 + (1 + needV w + needL t) := rfl
        show pv (f' + 1) (([91, 10] ++ dumpItems (PyList.cons w t) (lvl + 2) ++ [10] ++
          indSp lvl ++ [93]) ++ rest) = _
        rw [show ([91, 10] ++ dumpItems (PyList.cons w t) (lvl + 2) ++ [10] ++
            indSp lvl ++ [93]) ++ rest =
          91 :: 10 :: (dumpItems (PyList.cons w t) (lvl + 2) ++
            10 :: (indSp lvl ++ 93 :: rest)) by simp]
        rw [pv_arr]
        rw [skipWs_nl, dumpItems_decomp t w (lvl + 2) lvl rest, skipWs_indSp,
          skipWs_dumpVal]
        rw [(headIs_dumpVal_close w (lvl + 2) _).1]
        rw [if_neg (by simp : ¬((false : Bool) = true))]
        rw [itemsLoop_rt f' (fun v' lvl' rest' hw' hg' hn' => ih v' lvl' rest' hw' hg' hn')
          t f' w (lvl + 2) lvl rest hwparts.1 hwparts.2 hgt
          (by rw [hneedL] at hneed; omega)
          (by rw [hneedL] at hneed; omega)]
        rfl
    | PDict kvs =>
      cases kvs with
      | nil => rfl
      | cons k w t =>
        have hwparts : wfStr k = true ∧ keyMem k t = false ∧ wfV w = true ∧
            wfKVs t = true := by
          have : wfKVs (PyKVs.cons k w t) = true := hwf
          simp only [wfKVs, Bool.and_eq_true, Bool.not_eq_true'] at this
          exact ⟨this.1.1.1, this.1.1.2, this.1.2, this.2⟩
        have hneedK : needV (PyVal.PDict (PyKVs.cons k w t)) =
            1 + (1 + needV w + needKVs t) := rfl
        show pv (f' + 1) (([123, 10] ++ dumpEntries (PyKVs.cons k w t) (lvl + 2) ++ [10] ++
          indSp lvl ++ [125]) ++ rest) = _
        rw [show ([123, 10] ++ dumpEntries (PyKVs.cons k w t) (lvl + 2) ++ [10] ++
            indSp lvl ++ [125]) ++ rest =
          123 :: 10 :: (dumpEntries (PyKVs.cons k w t) (lvl + 2) ++
            10 :: (indSp lvl ++ 125 :: rest)) by simp]
        rw [pv_obj]
        rw [skipWs_nl, dumpEntries_decomp t k w (lvl + 2) lvl rest, skipWs_indSp]
        rw [skipWs_not_ws (c := 34) rfl]
        rw [show headIs (34 :: (encStr k ++ 34 :: 58 :: 32 ::
          (dumpVal w (lvl + 2) ++ entriesSuffix (lvl + 2) lvl rest t))) 125 = false
          from rfl]
        rw [if_neg (by simp : ¬((false : Bool) = true))]
        rw [kvLoop_rt f' (fun v' lvl' rest' hw' hg' hn' => ih v' lvl' rest' hw' hg' hn')
          t f' k w (lvl + 2) lvl rest hwparts.1 hwparts.2.2.1 hwparts.2.2.2 hgt
          (by rw [hneedK] at hneed; omega)
          (by rw [hneedK] at hneed; omega)]
        simp only [Option.map_some']
        rw [objFromPairs_wf (PyKVs.cons k w t) hwf]

mutual

theorem needV_le : ∀ (v : PyVal) (lvl : Nat), needV v ≤ (dumpVal v lvl).length
  | .PNone, _ => by show (1:Nat) ≤ (s2 "null").length; decide
  | .PBool true, _ => by show (1:Nat) ≤ (s2 "true").length; decide
  | .PBool false, _ => by show (1:Nat) ≤ (s2 "false").length; decide
  | .PNan, _ => by show (1:Nat) ≤ (s2 "NaN").length; decide
  | .PInf, _ => by show (1:Nat) ≤ (s2 "Infinity").length; decide
  | .PNegInf, _ => by show (1:Nat) ≤ (s2 "-Infinity").length; decide
  | .PInt n, _ => by
    show (1:Nat) ≤ (intDigitChars n).length
    unfold intDigitChars
    by_cases hn : n < 0
    · rw [if_pos hn]
      simp
    · rw [if_neg hn]
      exact List.length_pos.mpr (natDigitChars_ne_nil n.natAbs)
  | .PFloat m e, _ => by
    show (1:Nat) ≤ (floatChars m e).length
    obtain ⟨c, t, heq, _⟩ := floatChars_head m e
    rw [heq]
    simp
  | .PStr s, _ => by
    show (1:Nat) ≤ ([34] ++ encStr s ++ [34]).length
    simp
  | .PList .nil, _ => by show (1:Nat) ≤ ([91, 93] : List Nat).length; decide
  | .PList (.cons v t), lvl => by
    have h := needL_le (PyList.cons v t) (lvl + 2)
    show 1 + needL (PyList.cons v t) ≤ ([91, 10] ++ dumpItems (PyList.cons v t) (lvl + 2) ++
      [10] ++ indSp lvl ++ [93]).length
    simp only [List.length_append, List.length_cons, List.length_nil, indSp,
      List.length_replicate]
    omega
  | .PDict .nil, _ => by show (1:Nat) ≤ ([123, 125] : List Nat).length; decide
  | .PDict (.cons k v t), lvl => by
    have h := needKVs_le (PyKVs.cons k v t) (lvl + 2)
    show 1 + needKVs (PyKVs.cons k v t) ≤ ([123, 10] ++
      dumpEntries (PyKVs.cons k v t) (lvl + 2) ++ [10] ++ indSp lvl ++ [125]).length
    simp only [List.length_append, List.length_cons, List.length_nil, indSp,
      List.length_replicate]
    omega

theorem needL_le : ∀ (xs : PyList) (lvl : Nat), needL xs ≤ (dumpItems xs lvl).length + 2
  | .nil, _ => by show (1:Nat) ≤ ([] : List Nat).length + 2; decide
  | .cons v .nil, lvl => by
    have h := needV_le v lvl
    show 1 + needV v + 1 ≤ (indSp lvl ++ dumpVal v lvl).length + 2
    simp only [List.length_append, indSp, List.length_replicate]
    omega
  | .cons v (.cons w t), lvl => by
    have h1 := needV_le v lvl
    have h2 := needL_le (PyList.cons w t) lvl
    show 1 + needV v + needL (PyList.cons w t) ≤
      (indSp lvl ++ dumpVal v lvl ++ [44, 10] ++ dumpItems (PyList.cons w t) lvl).length + 2
    simp only [List.length_append, List.length_cons, List.length_nil, indSp,
      List.length_replicate]
    omega

theorem needKVs_le : ∀ (t : PyKVs) (lvl : Nat), needKVs t ≤ (dumpEntries t lvl).length + 2
  | .nil, _ => by show (1:Nat) ≤ ([] : List Nat).length + 2; decide
  | .cons k v .nil, lvl => by
    have h := needV_le v lvl
    show 1 + needV v + 1 ≤ (indSp lvl ++ [34] ++ encStr k ++ [34, 58, 32] ++
      dumpVal v lvl).length + 2
    simp only [List.length_append, List.length_cons, List.length_nil, indSp,
      List.length_replicate]
    omega
  | .cons k v (.cons k2 v2 t), lvl => by
    have h1 := needV_le v lvl
    have h2 := needKVs_le (PyKVs.cons k2 v2 t) lvl
    show 1 + needV v + needKVs (PyKVs.cons k2 v2 t) ≤
      (indSp lvl ++ [34] ++ encStr k ++ [34, 58, 32] ++ dumpVal v lvl ++ [44, 10] ++
        dumpEntries (PyKVs.cons k2 v2 t) lvl).length + 2
    simp only [List.length_append, List.length_cons, List.length_nil, indSp,
      List.length_replicate]
    omega

end

/-- `json.loads` inverts `json.dumps(v, indent=2)` on well-formed values. -/
theorem json_loads_rt (v : PyVal) (h : wfV v = true) :
    json_loads (json_dumps2 v) = some v := by
  unfold json_loads json_dumps2
  simp only []
  rw [show dumpVal v 0 = dumpVal v 0 ++ [] by simp]
  rw [skipWs_dumpVal]
  have hlt : needV v < (dumpVal v 0 ++ []).length + 1 := by
    have h1 := needV_le v 0
    have h2 : (dumpVal v 0 ++ []).length = (dumpVal v 0).length := by simp
    omega
  have hres := pv_rt ((dumpVal v 0 ++ []).length + 1) v 0 [] h (Or.inl rfl) hlt
  rw [hres]
  rfl

end ValueRoundTrip

/-- C8: Normalization is idempotent on structured input: a message whose
content is exactly the pretty-printed serialization of a well-formed value
(representable code points, no adjacent surrogate pair, canonical floats,
no duplicate dict keys -- as every value produced by the decode path is)
parses back to the same value, so normalizing it again reproduces the same
literal-block payload unchanged. -/
theorem normalization_idempotent_structured (v : PyVal) (h : wfV v = true) :
    formatMessage (.PStr (json_dumps2 v)) = some (codeblock (json_dumps2 v)) := by
  unfold formatMessage
  simp only []
  rw [json_loads_rt v h]

theorem normalization_idempotent_structured_witness :
    wfV (PyVal.PDict (PyKVs.cons (s2 "message") (PyVal.PStr (s2 "hi")) PyKVs.nil)) = true ∧
    formatMessage (PyVal.PStr (json_dumps2
      (PyVal.PDict (PyKVs.cons (s2 "message") (PyVal.PStr (s2 "hi")) PyKVs.nil)))) =
      some (codeblock (json_dumps2
        (PyVal.PDict (PyKVs.cons (s2 "message") (PyVal.PStr (s2 "hi")) PyKVs.nil)))) :=
  ⟨by decide, normalization_idempotent_structured _ (by decide)⟩
